import Mathlib

/-!
Verification of the graph library (graph.py, digraph.py, graphs.py).

Shallow embedding conventions:
* Vertex labels are natural numbers (any hashable label set; the claims use
  integer labels).
* A Python `set` of vertices is modelled as a duplicate-free `List ℕ` carrying
  an (arbitrary but fixed) iteration order; `set.add` appends when absent.
* A Python `dict` keyed by vertices is modelled by its key list (insertion
  order) together with a total function giving the value at each key; the
  function is only meaningful on keys.
* Mutation is modelled by state passing: a method that mutates `self` returns
  the updated structure.  A call that raises an uncaught Python exception is
  modelled as `none` of an `Option` result.
* `graph.__init__` computes `self.ne = sum(...) / 2` with Python 3 true
  division, so the undirected edge counter is modelled as a rational number.
-/

namespace graph

/-- Model of Python `set.add` on a set represented as a duplicate-free list:
adding an element that is present leaves the set unchanged, otherwise the
element joins the iteration order at some position (modelled as the end). -/
def setAdd (l : List ℕ) (x : ℕ) : List ℕ := if x ∈ l then l else l ++ [x]

/-- State of a `graph` instance (graph.py): `verts` is the key list of
`self.ve_dict` in insertion order, `adj` gives the neighbour set of each key,
`degs` is `self.degs`, `nv` is `self.nv` and `ne` is `self.ne` (a Python 3
float produced by true division, modelled exactly as a rational). -/
structure UGraph where
  verts : List ℕ
  adj : ℕ → List ℕ
  degs : ℕ → ℕ
  nv : ℕ
  ne : ℚ

/-- Value of `edge_dict.get(v, set())` where the seed mapping is modelled as
an association list; the Python value is a set, so the model deduplicates. -/
def seedGet (seed : List (ℕ × List ℕ)) (v : ℕ) : List ℕ :=
  ((seed.lookup v).getD []).dedup

/-- Embedding of `graph.__init__(verts, edge_dict)` (graph.py lines 32-36):
`ve_dict` keeps one key per distinct vertex with value
`edge_dict.get(v, set())` (unknown keys of the seed are dropped by `get`,
but members of kept values are not filtered), `degs` maps every key to 0,
`nv = len(verts)` and `ne = sum(map(len, ve_dict.values())) / 2`. -/
def ofVerts (verts : List ℕ) (seed : List (ℕ × List ℕ)) : UGraph :=
  { verts := verts.dedup
    adj := fun v => if v ∈ verts then seedGet seed v else []
    degs := fun _ => 0
    nv := verts.length
    ne := ((verts.dedup.map (fun v => (seedGet seed v).length)).sum : ℚ) / 2 }

/-- Embedding of `graph.add_edge(i, j)` (graph.py lines 51-65).  Returns the
boolean result together with the state of the instance after the call. -/
def add_edge (g : UGraph) (i j : ℕ) : Bool × UGraph :=
  if i ∈ g.verts ∧ j ∈ g.verts then
    if i = j then (false, g)
    else if i ∈ g.adj j then (false, g)
    else (true,
      { g with
        ne := g.ne + 1
        degs := Function.update (Function.update g.degs i (g.degs i + 1)) j
          ((Function.update g.degs i (g.degs i + 1)) j + 1)
        adj := Function.update (Function.update g.adj i (setAdd (g.adj i) j)) j
          (setAdd ((Function.update g.adj i (setAdd (g.adj i) j)) j) i) })
  else (false, g)

/-- Embedding of `graph.subgraph(some_verts)` (graph.py lines 67-73): builds
the filtered seed mapping and hands it to the constructor. -/
def subgraph (g : UGraph) (someVerts : List ℕ) : UGraph :=
  ofVerts someVerts (someVerts.map (fun v => (v, (g.adj v).filter (· ∈ someVerts))))

/-- Folding a list of `add_edge` calls over a graph, ignoring the returned
booleans; models an arbitrary sequence of `add_edge` invocations. -/
def addEdges (g : UGraph) (ops : List (ℕ × ℕ)) : UGraph :=
  ops.foldl (fun h p => (add_edge h p.1 p.2).2) g

/-- Embedding of the loop of `weighted_choice` (graph.py lines 4-18): `cur` is
the last value taken by the loop variable `choice`, `thr` the running
`threshold`.  The loop breaks at the first key whose inclusive cumulative
weight reaches `cutoff`; if no key does, the loop ends and the function
returns the last key.  On an empty mapping the loop variable is unbound and
the final `return choice` raises `NameError`, modelled as `none`. -/
def wcLoop (cur : Option ℕ) (thr : ℚ) : List (ℕ × ℚ) → ℚ → Option ℕ
  | [], _ => cur
  | (k, w) :: rest, cutoff =>
      if thr + w ≥ cutoff then some k else wcLoop (some k) (thr + w) rest cutoff

/-- Embedding of `graph.weighted_choice(weight_dict)` at a fixed uniform draw
`cutoff` (graph.py lines 4-18).  The computed sum `w` is discarded by the
source; no validation happens. -/
def weighted_choice (weights : List (ℕ × ℚ)) (cutoff : ℚ) : Option ℕ :=
  wcLoop none 0 weights cutoff

end graph

namespace digraph

/-- State of a `digraph` instance (digraph.py): `ne` is an integer because the
directed constructor performs no division. -/
structure DGraph where
  verts : List ℕ
  adj : ℕ → List ℕ
  out_deg : ℕ → ℕ
  nv : ℕ
  ne : ℕ

/-- Embedding of `digraph.__init__(verts, edge_dict)` (digraph.py lines
34-38). -/
def ofVerts (verts : List ℕ) (seed : List (ℕ × List ℕ)) : DGraph :=
  { verts := verts.dedup
    adj := fun v => if v ∈ verts then graph.seedGet seed v else []
    out_deg := fun _ => 0
    nv := verts.length
    ne := (verts.dedup.map (fun v => (graph.seedGet seed v).length)).sum }

/-- Embedding of `digraph.add_edge(v, w)` (digraph.py lines 53-66). -/
def add_edge (g : DGraph) (v w : ℕ) : Bool × DGraph :=
  if v ∈ g.verts ∧ w ∈ g.verts then
    if v = w then (false, g)
    else if w ∈ g.adj v then (false, g)
    else (true,
      { g with
        ne := g.ne + 1
        out_deg := Function.update g.out_deg v (g.out_deg v + 1)
        adj := Function.update g.adj v (graph.setAdd (g.adj v) w) })
  else (false, g)

/-- Folding a list of `add_edge` calls over a digraph. -/
def addEdges (g : DGraph) (ops : List (ℕ × ℕ)) : DGraph :=
  ops.foldl (fun h p => (add_edge h p.1 p.2).2) g

/-- Embedding of `digraph.subgraph(some_verts)` (digraph.py lines 68-74).
The body evaluates the filtered seed mapping and then calls `graph(...)`, but
the name `graph` is not defined anywhere in digraph.py (the module only
defines `digraph` and imports `numpy` and `random`), so the call always
raises `NameError`; the result is modelled as `none`. -/
def subgraph (_g : DGraph) (_someVerts : List ℕ) : Option DGraph := none

/-- Embedding of `digraph.weighted_choice(weight_dict)` at a fixed draw
`cutoff` (digraph.py lines 4-20): unlike the undirected variant it first
checks `sum(weight_dict.values()) != 1` with exact equality and returns the
Python value `False` on failure; `none` models that non-key result (which is
not a vertex and poisons any later dictionary lookup). -/
def weighted_choice (weights : List (ℕ × ℚ)) (cutoff : ℚ) : Option ℕ :=
  if (weights.map Prod.snd).sum ≠ 1 then none
  else graph.wcLoop none 0 weights cutoff

end digraph

/-! ## Basic lemmas about the set model and constructors -/

theorem mem_setAdd (l : List ℕ) (x u : ℕ) : u ∈ graph.setAdd l x ↔ u ∈ l ∨ u = x := by
  unfold graph.setAdd
  split_ifs with h
  · constructor
    · exact Or.inl
    · rintro (h1 | rfl)
      · exact h1
      · exact h
  · simp

theorem nodup_setAdd (l : List ℕ) (x : ℕ) (h : l.Nodup) : (graph.setAdd l x).Nodup := by
  unfold graph.setAdd
  split_ifs with hx
  · exact h
  · simpa [List.nodup_append, h] using hx

theorem length_setAdd_not_mem (l : List ℕ) (x : ℕ) (h : x ∉ l) :
    (graph.setAdd l x).length = l.length + 1 := by
  simp [graph.setAdd, h]

/-- Looking a known key up in the seed mapping is unaffected by dropping the
entries whose key is unknown. -/
theorem lookup_filter_keys (verts : List ℕ) (seed : List (ℕ × List ℕ)) {v : ℕ}
    (hv : v ∈ verts) :
    (seed.filter (fun p => decide (p.1 ∈ verts))).lookup v = seed.lookup v := by
  induction seed with
  | nil => rfl
  | cons p rest ih =>
    obtain ⟨k, l⟩ := p
    by_cases hk : k ∈ verts
    · by_cases hvk : v = k
      · subst hvk
        simp only [List.filter_cons, decide_eq_true_eq]
        rw [if_pos hk, List.lookup, beq_self_eq_true]
        rw [List.lookup, beq_self_eq_true]
      · simp only [List.filter_cons, decide_eq_true_eq]
        rw [if_pos hk, List.lookup, beq_eq_false_iff_ne.mpr hvk, List.lookup,
          beq_eq_false_iff_ne.mpr hvk]
        exact ih
    · have hvk : v ≠ k := fun h => hk (h ▸ hv)
      simp only [List.filter_cons, decide_eq_true_eq]
      rw [if_neg hk, List.lookup, beq_eq_false_iff_ne.mpr hvk]
      exact ih

/-! ## C1: characterization of add_edge (graph.py 51-65, digraph.py 53-66) -/

theorem uadd_spec (g : graph.UGraph) (i j : ℕ) :
    ((graph.add_edge g i j).1 = false ↔
      i = j ∨ i ∉ g.verts ∨ j ∉ g.verts ∨ i ∈ g.adj j) ∧
    ((graph.add_edge g i j).1 = false → (graph.add_edge g i j).2 = g) ∧
    ((graph.add_edge g i j).1 = true →
      (graph.add_edge g i j).2.verts = g.verts ∧
      (graph.add_edge g i j).2.nv = g.nv ∧
      (graph.add_edge g i j).2.ne = g.ne + 1 ∧
      (graph.add_edge g i j).2.degs i = g.degs i + 1 ∧
      (graph.add_edge g i j).2.degs j = g.degs j + 1 ∧
      (∀ x, x ≠ i → x ≠ j → (graph.add_edge g i j).2.degs x = g.degs x) ∧
      (∀ u, u ∈ (graph.add_edge g i j).2.adj i ↔ (u ∈ g.adj i ∨ u = j)) ∧
      (∀ u, u ∈ (graph.add_edge g i j).2.adj j ↔ (u ∈ g.adj j ∨ u = i)) ∧
      (∀ x, x ≠ i → x ≠ j → (graph.add_edge g i j).2.adj x = g.adj x)) := by
  by_cases hmem : i ∈ g.verts ∧ j ∈ g.verts
  · by_cases hij : i = j
    · subst hij
      simp [graph.add_edge, hmem]
    · by_cases hadj : i ∈ g.adj j
      · simp [graph.add_edge, hmem, hij, hadj]
      · have hji : j ≠ i := fun h => hij h.symm
        have heq : graph.add_edge g i j = (true,
            { g with
              ne := g.ne + 1
              degs := Function.update (Function.update g.degs i (g.degs i + 1)) j
                ((Function.update g.degs i (g.degs i + 1)) j + 1)
              adj := Function.update (Function.update g.adj i (graph.setAdd (g.adj i) j)) j
                (graph.setAdd ((Function.update g.adj i (graph.setAdd (g.adj i) j)) j) i) }) := by
          rw [graph.add_edge, if_pos hmem, if_neg hij, if_neg hadj]
        rw [heq]
        refine ⟨by simp [hij, hmem.1, hmem.2, hadj], by simp, ?_⟩
        intro _
        refine ⟨rfl, rfl, rfl, ?_, ?_, ?_, ?_, ?_, ?_⟩
        · show Function.update _ j _ i = _
          rw [Function.update_noteq hij, Function.update_same]
        · show Function.update _ j _ j = _
          rw [Function.update_same, Function.update_noteq hji]
        · intro x hxi hxj
          show Function.update _ j _ x = _
          rw [Function.update_noteq hxj, Function.update_noteq hxi]
        · intro u
          simp only [Function.update_noteq hij, Function.update_same, mem_setAdd]
        · intro u
          simp only [Function.update_same, Function.update_noteq hji, mem_setAdd]
        · intro x hxi hxj
          show Function.update _ j _ x = _
          rw [Function.update_noteq hxj, Function.update_noteq hxi]
  · have : i ∉ g.verts ∨ j ∉ g.verts := by tauto
    refine ⟨by simp [graph.add_edge, hmem]; tauto, ?_, ?_⟩
    · intro _
      simp [graph.add_edge, hmem]
    · intro htrue
      exfalso
      simp [graph.add_edge, hmem] at htrue

theorem dadd_spec (g : digraph.DGraph) (v w : ℕ) :
    ((digraph.add_edge g v w).1 = false ↔
      v = w ∨ v ∉ g.verts ∨ w ∉ g.verts ∨ w ∈ g.adj v) ∧
    ((digraph.add_edge g v w).1 = false → (digraph.add_edge g v w).2 = g) ∧
    ((digraph.add_edge g v w).1 = true →
      (digraph.add_edge g v w).2.verts = g.verts ∧
      (digraph.add_edge g v w).2.nv = g.nv ∧
      (digraph.add_edge g v w).2.ne = g.ne + 1 ∧
      (digraph.add_edge g v w).2.out_deg v = g.out_deg v + 1 ∧
      (∀ x, x ≠ v → (digraph.add_edge g v w).2.out_deg x = g.out_deg x) ∧
      (∀ u, u ∈ (digraph.add_edge g v w).2.adj v ↔ (u ∈ g.adj v ∨ u = w)) ∧
      (∀ x, x ≠ v → (digraph.add_edge g v w).2.adj x = g.adj x)) := by
  by_cases hmem : v ∈ g.verts ∧ w ∈ g.verts
  · by_cases hvw : v = w
    · subst hvw
      simp [digraph.add_edge, hmem]
    · by_cases hadj : w ∈ g.adj v
      · simp [digraph.add_edge, hmem, hvw, hadj]
      · have heq : digraph.add_edge g v w = (true,
            { g with
              ne := g.ne + 1
              out_deg := Function.update g.out_deg v (g.out_deg v + 1)
              adj := Function.update g.adj v (graph.setAdd (g.adj v) w) }) := by
          rw [digraph.add_edge, if_pos hmem, if_neg hvw, if_neg hadj]
        rw [heq]
        refine ⟨by simp [hvw, hmem.1, hmem.2, hadj], by simp, ?_⟩
        intro _
        refine ⟨rfl, rfl, rfl, Function.update_same _ _ _, ?_, ?_, ?_⟩
        · intro x hxv
          exact Function.update_noteq hxv _ _
        · intro u
          simp only [Function.update_same, mem_setAdd]
        · intro x hxv
          exact Function.update_noteq hxv _ _
  · have : v ∉ g.verts ∨ w ∉ g.verts := by tauto
    refine ⟨by simp [digraph.add_edge, hmem]; tauto, ?_, ?_⟩
    · intro _
      simp [digraph.add_edge, hmem]
    · intro htrue
      exfalso
      simp [digraph.add_edge, hmem] at htrue

/-- C1: for every graph or digraph state and labels, `add_edge` returns a
boolean (the embedding is a total function, so no exception is possible); it
returns `false` exactly when the endpoints coincide, an endpoint is not a
key, or the edge is already present (tested by the source as membership of
one endpoint in the other's neighbour set, which under the documented
symmetry invariant is edge presence); on `false` the state is returned
untouched, and on `true` the adjacency, the degree (resp. out-degree)
counters and `edge_count` are all updated in the same call. -/
theorem claim1_add_edge :
    (∀ (g : graph.UGraph) (i j : ℕ),
      ((graph.add_edge g i j).1 = false ↔
        i = j ∨ i ∉ g.verts ∨ j ∉ g.verts ∨ i ∈ g.adj j) ∧
      ((graph.add_edge g i j).1 = false → (graph.add_edge g i j).2 = g) ∧
      ((graph.add_edge g i j).1 = true →
        (graph.add_edge g i j).2.verts = g.verts ∧
        (graph.add_edge g i j).2.nv = g.nv ∧
        (graph.add_edge g i j).2.ne = g.ne + 1 ∧
        (graph.add_edge g i j).2.degs i = g.degs i + 1 ∧
        (graph.add_edge g i j).2.degs j = g.degs j + 1 ∧
        (∀ x, x ≠ i → x ≠ j → (graph.add_edge g i j).2.degs x = g.degs x) ∧
        (∀ u, u ∈ (graph.add_edge g i j).2.adj i ↔ (u ∈ g.adj i ∨ u = j)) ∧
        (∀ u, u ∈ (graph.add_edge g i j).2.adj j ↔ (u ∈ g.adj j ∨ u = i)) ∧
        (∀ x, x ≠ i → x ≠ j → (graph.add_edge g i j).2.adj x = g.adj x))) ∧
    (∀ (g : digraph.DGraph) (v w : ℕ),
      ((digraph.add_edge g v w).1 = false ↔
        v = w ∨ v ∉ g.verts ∨ w ∉ g.verts ∨ w ∈ g.adj v) ∧
      ((digraph.add_edge g v w).1 = false → (digraph.add_edge g v w).2 = g) ∧
      ((digraph.add_edge g v w).1 = true →
        (digraph.add_edge g v w).2.verts = g.verts ∧
        (digraph.add_edge g v w).2.nv = g.nv ∧
        (digraph.add_edge g v w).2.ne = g.ne + 1 ∧
        (digraph.add_edge g v w).2.out_deg v = g.out_deg v + 1 ∧
        (∀ x, x ≠ v → (digraph.add_edge g v w).2.out_deg x = g.out_deg x) ∧
        (∀ u, u ∈ (digraph.add_edge g v w).2.adj v ↔ (u ∈ g.adj v ∨ u = w)) ∧
        (∀ x, x ≠ v → (digraph.add_edge g v w).2.adj x = g.adj x))) :=
  ⟨uadd_spec, dadd_spec⟩

/-! ## C2: edge_count versus the degree sums -/

/-- The degree bookkeeping a graph state satisfies after a seedless
construction: `ne` is a natural number and twice it is the degree sum. -/
def goodNe (g : graph.UGraph) : Prop :=
  ∃ n : ℕ, g.ne = (n : ℚ) ∧ 2 * n = ∑ v ∈ g.verts.toFinset, g.degs v

/-- Directed counterpart of `goodNe`. -/
def goodNeD (g : digraph.DGraph) : Prop :=
  g.ne = ∑ v ∈ g.verts.toFinset, g.out_deg v

theorem goodNe_ofVerts (verts : List ℕ) : goodNe (graph.ofVerts verts []) := by
  refine ⟨0, ?_, ?_⟩
  · simp [graph.ofVerts, graph.seedGet, List.lookup]
  · simp [graph.ofVerts]

theorem goodNeD_ofVerts (verts : List ℕ) : goodNeD (digraph.ofVerts verts []) := by
  simp [goodNeD, digraph.ofVerts, graph.seedGet, List.lookup]

theorem goodNe_add_edge (g : graph.UGraph) (h : goodNe g) (i j : ℕ) :
    goodNe (graph.add_edge g i j).2 := by
  obtain ⟨n, hne, hsum⟩ := h
  cases hb : (graph.add_edge g i j).1 with
  | false =>
    rw [(uadd_spec g i j).2.1 hb]
    exact ⟨n, hne, hsum⟩
  | true =>
    obtain ⟨hverts, _, hNe, hdi, hdj, hdx, _, _, _⟩ := (uadd_spec g i j).2.2 hb
    have hcond := (uadd_spec g i j).1
    rw [hb] at hcond
    have hfail : ¬ (i = j ∨ i ∉ g.verts ∨ j ∉ g.verts ∨ i ∈ g.adj j) := by
      intro hc
      exact absurd (hcond.mpr hc) (by simp)
    push_neg at hfail
    obtain ⟨hij, hiv, hjv, _⟩ := hfail
    refine ⟨n + 1, ?_, ?_⟩
    · rw [hNe, hne]
      push_cast
      ring
    · rw [hverts]
      set f := (graph.add_edge g i j).2.degs with hf
      set s := g.verts.toFinset with hs
      have his : i ∈ s := List.mem_toFinset.mpr hiv
      have hjs : j ∈ s := List.mem_toFinset.mpr hjv
      have hie : i ∈ s.erase j := Finset.mem_erase.mpr ⟨hij, his⟩
      have congrRest : ∑ x ∈ (s.erase j).erase i, f x = ∑ x ∈ (s.erase j).erase i, g.degs x := by
        refine Finset.sum_congr rfl ?_
        intro x hx
        have hxi : x ≠ i := (Finset.mem_erase.mp hx).1
        have hxj : x ≠ j := (Finset.mem_erase.mp (Finset.mem_erase.mp hx).2).1
        exact hdx x hxi hxj
      have e1 : ∑ x ∈ s, f x = (g.degs j + 1) + ((g.degs i + 1) + ∑ x ∈ (s.erase j).erase i, g.degs x) := by
        rw [← Finset.add_sum_erase s f hjs, ← Finset.add_sum_erase (s.erase j) f hie, congrRest,
          hdj, hdi]
      have e2 : ∑ x ∈ s, g.degs x = g.degs j + (g.degs i + ∑ x ∈ (s.erase j).erase i, g.degs x) := by
        rw [← Finset.add_sum_erase s g.degs hjs, ← Finset.add_sum_erase (s.erase j) g.degs hie]
      rw [e1]
      rw [e2] at hsum
      omega

theorem goodNeD_add_edge (g : digraph.DGraph) (h : goodNeD g) (v w : ℕ) :
    goodNeD (digraph.add_edge g v w).2 := by
  cases hb : (digraph.add_edge g v w).1 with
  | false =>
    rw [(dadd_spec g v w).2.1 hb]
    exact h
  | true =>
    obtain ⟨hverts, _, hNe, hdv, hdx, _, _⟩ := (dadd_spec g v w).2.2 hb
    have hcond := (dadd_spec g v w).1
    rw [hb] at hcond
    have hfail : ¬ (v = w ∨ v ∉ g.verts ∨ w ∉ g.verts ∨ w ∈ g.adj v) := by
      intro hc
      exact absurd (hcond.mpr hc) (by simp)
    push_neg at hfail
    obtain ⟨_, hvv, _, _⟩ := hfail
    unfold goodNeD
    rw [hverts, hNe]
    set f := (digraph.add_edge g v w).2.out_deg with hf
    set s := g.verts.toFinset with hs
    have hvs : v ∈ s := List.mem_toFinset.mpr hvv
    have congrRest : ∑ x ∈ s.erase v, f x = ∑ x ∈ s.erase v, g.out_deg x := by
      refine Finset.sum_congr rfl ?_
      intro x hx
      exact hdx x (Finset.mem_erase.mp hx).1
    rw [← Finset.add_sum_erase s f hvs, congrRest, hdv, h,
      ← Finset.add_sum_erase s g.out_deg hvs]
    omega

theorem goodNe_addEdges (g : graph.UGraph) (h : goodNe g) (ops : List (ℕ × ℕ)) :
    goodNe (graph.addEdges g ops) := by
  induction ops generalizing g with
  | nil => exact h
  | cons p rest ih => exact ih _ (goodNe_add_edge g h p.1 p.2)

theorem goodNeD_addEdges (g : digraph.DGraph) (h : goodNeD g) (ops : List (ℕ × ℕ)) :
    goodNeD (digraph.addEdges g ops) := by
  induction ops generalizing g with
  | nil => exact h
  | cons p rest ih => exact ih _ (goodNeD_add_edge g h p.1 p.2)

/-- C2 counterexample: a graph constructed WITH a seed edge mapping violates
the claimed identity, because the constructor seeds the adjacency sets but
leaves every degree (out-degree) counter at zero.  The undirected graph on
vertices 0, 1 seeded with the edge 0-1 has `edge_count = 1` while the degree
sum is 0; the digraph seeded with 0 to 1 has `edge_count = 1` while the
out-degree sum is 0. -/
theorem claim2_counterexample :
    (graph.addEdges (graph.ofVerts [0, 1] [(0, [1]), (1, [0])]) []).ne ≠
      (∑ v ∈ (graph.addEdges (graph.ofVerts [0, 1] [(0, [1]), (1, [0])]) []).verts.toFinset,
        ((graph.addEdges (graph.ofVerts [0, 1] [(0, [1]), (1, [0])]) []).degs v : ℚ)) / 2 ∧
    (digraph.addEdges (digraph.ofVerts [0, 1] [(0, [1])]) []).ne ≠
      ∑ v ∈ (digraph.addEdges (digraph.ofVerts [0, 1] [(0, [1])]) []).verts.toFinset,
        (digraph.addEdges (digraph.ofVerts [0, 1] [(0, [1])]) []).out_deg v := by
  constructor
  · have hd : (graph.addEdges (graph.ofVerts [0, 1] [(0, [1]), (1, [0])]) []).degs =
        fun _ => 0 := rfl
    have h2 : (([0, 1] : List ℕ).dedup.map
        (fun v => (graph.seedGet [(0, [1]), (1, [0])] v).length)).sum = 2 := by decide
    have hne : (graph.addEdges (graph.ofVerts [0, 1] [(0, [1]), (1, [0])]) []).ne = 1 := by
      show ((([0, 1] : List ℕ).dedup.map
        (fun v => (graph.seedGet [(0, [1]), (1, [0])] v).length)).sum : ℚ) / 2 = 1
      rw [h2]
      norm_num
    rw [hne, hd]
    norm_num
  · decide

/-- C2 amended: for every graph or digraph constructed from any vertex
collection WITHOUT seed edges (empty seed mapping), and after any sequence of
`add_edge` calls, `edge_count` is a (cast of a) natural number and equals the
degree sum over the vertex keys divided by two in the undirected case, and
the out-degree sum in the directed case.  (With a non-empty seed mapping the
identity can fail, as the counterexample shows.) -/
theorem claim2_amended :
    (∀ (verts : List ℕ) (ops : List (ℕ × ℕ)),
      ∃ n : ℕ,
        (graph.addEdges (graph.ofVerts verts []) ops).ne = (n : ℚ) ∧
        (graph.addEdges (graph.ofVerts verts []) ops).ne =
          (∑ v ∈ (graph.addEdges (graph.ofVerts verts []) ops).verts.toFinset,
            ((graph.addEdges (graph.ofVerts verts []) ops).degs v : ℚ)) / 2) ∧
    (∀ (verts : List ℕ) (ops : List (ℕ × ℕ)),
      (digraph.addEdges (digraph.ofVerts verts []) ops).ne =
        ∑ v ∈ (digraph.addEdges (digraph.ofVerts verts []) ops).verts.toFinset,
          (digraph.addEdges (digraph.ofVerts verts []) ops).out_deg v) := by
  constructor
  · intro verts ops
    obtain ⟨n, hne, hsum⟩ := goodNe_addEdges _ (goodNe_ofVerts verts) ops
    refine ⟨n, hne, ?_⟩
    rw [hne, eq_div_iff (two_ne_zero)]
    rw [← Nat.cast_sum]
    exact_mod_cast (by omega :
      n * 2 = ∑ v ∈ (graph.addEdges (graph.ofVerts verts []) ops).verts.toFinset,
        (graph.addEdges (graph.ofVerts verts []) ops).degs v)
  · intro verts ops
    exact goodNeD_addEdges _ (goodNeD_ofVerts verts) ops

/-! ## C9: treatment of seed edges referencing unknown vertices -/

theorem ofVertsU_filter_seed (verts : List ℕ) (seed : List (ℕ × List ℕ)) :
    graph.ofVerts verts (seed.filter (fun p => decide (p.1 ∈ verts))) =
      graph.ofVerts verts seed := by
  have hget : ∀ v ∈ verts,
      graph.seedGet (seed.filter (fun p => decide (p.1 ∈ verts))) v = graph.seedGet seed v := by
    intro v hv
    unfold graph.seedGet
    rw [lookup_filter_keys verts seed hv]
  unfold graph.ofVerts
  congr 1
  · funext v
    by_cases hv : v ∈ verts
    · rw [if_pos hv, if_pos hv, hget v hv]
    · rw [if_neg hv, if_neg hv]
  · rw [List.map_congr_left (fun v hv => by rw [hget v (List.mem_dedup.mp hv)])]

theorem ofVertsD_filter_seed (verts : List ℕ) (seed : List (ℕ × List ℕ)) :
    digraph.ofVerts verts (seed.filter (fun p => decide (p.1 ∈ verts))) =
      digraph.ofVerts verts seed := by
  have hget : ∀ v ∈ verts,
      graph.seedGet (seed.filter (fun p => decide (p.1 ∈ verts))) v = graph.seedGet seed v := by
    intro v hv
    unfold graph.seedGet
    rw [lookup_filter_keys verts seed hv]
  unfold digraph.ofVerts
  congr 1
  · funext v
    by_cases hv : v ∈ verts
    · rw [if_pos hv, if_pos hv, hget v hv]
    · rw [if_neg hv, if_neg hv]
  · rw [List.map_congr_left (fun v hv => by rw [hget v (List.mem_dedup.mp hv)])]

/-- C9 counterexample: the constructors do NOT restrict the adjacency
structure to the supplied vertex collection when the unknown vertex occurs as
a member of a seed neighbour set: `graph([0], {0: {5}})` keeps 5 inside the
neighbour set of 0 even though 5 is not a vertex (and likewise for the
digraph), refuting the part of the claim that says the resulting adjacency
structure mentions only vertices of V. -/
theorem claim9_counterexample :
    (5 ∈ (graph.ofVerts [0] [(0, [5])]).adj 0 ∧
      5 ∉ (graph.ofVerts [0] [(0, [5])]).verts) ∧
    (5 ∈ (digraph.ofVerts [0] [(0, [5])]).adj 0 ∧
      5 ∉ (digraph.ofVerts [0] [(0, [5])]).verts) := by
  decide

/-- C9 amended: the constructors silently ignore every seed ENTRY whose key is
outside the vertex collection (removing such entries does not change the
constructed graph or digraph, and no error is signaled — the constructor is
total), but they do not filter the neighbour sets of retained keys: for a
known key the stored neighbour set is exactly the seed value, so an unknown
vertex occurring as a member of a known key's neighbour set is retained in
the adjacency structure. -/
theorem claim9_amended :
    (∀ (verts : List ℕ) (seed : List (ℕ × List ℕ)),
      graph.ofVerts verts (seed.filter (fun p => decide (p.1 ∈ verts))) =
        graph.ofVerts verts seed) ∧
    (∀ (verts : List ℕ) (seed : List (ℕ × List ℕ)),
      digraph.ofVerts verts (seed.filter (fun p => decide (p.1 ∈ verts))) =
        digraph.ofVerts verts seed) ∧
    (∀ (verts : List ℕ) (seed : List (ℕ × List ℕ)) (v : ℕ), v ∈ verts →
      (graph.ofVerts verts seed).adj v = graph.seedGet seed v) ∧
    (∀ (verts : List ℕ) (seed : List (ℕ × List ℕ)) (v : ℕ), v ∈ verts →
      (digraph.ofVerts verts seed).adj v = graph.seedGet seed v) := by
  refine ⟨ofVertsU_filter_seed, ofVertsD_filter_seed, ?_, ?_⟩
  · intro verts seed v hv
    simp [graph.ofVerts, hv]
  · intro verts seed v hv
    simp [digraph.ofVerts, hv]

/-! ## C7: the weighted sampler -/

/-- Modelled from the spec words (section 4.1), for comparison with the code
loop: cumulative-sum selection returns the first key, in the mapping
iteration order, whose inclusive cumulative weight reaches or exceeds the
draw; `none` when no key reaches it. -/
def specFirstReach : List (ℕ × ℚ) → ℚ → Option ℕ
  | [], _ => none
  | (k, w) :: rest, cutoff =>
      if cutoff ≤ w then some k else specFirstReach rest (cutoff - w)

theorem wcLoop_eq_spec (l : List (ℕ × ℚ)) (cur : Option ℕ) (thr cutoff : ℚ) :
    graph.wcLoop cur thr l cutoff =
      match specFirstReach l (cutoff - thr) with
      | some k => some k
      | none =>
        match l.getLast? with
        | some p => some p.1
        | none => cur := by
  induction l generalizing cur thr with
  | nil => rfl
  | cons p rest ih =>
    obtain ⟨k, w⟩ := p
    show (if thr + w ≥ cutoff then some k
      else graph.wcLoop (some k) (thr + w) rest cutoff) = _
    by_cases hcond : cutoff ≤ thr + w
    · rw [if_pos (by linarith)]
      have hs : specFirstReach ((k, w) :: rest) (cutoff - thr) = some k := by
        rw [specFirstReach, if_pos (by linarith)]
      rw [hs]
    · rw [if_neg (by intro hc; exact hcond (by linarith))]
      rw [ih (some k) (thr + w)]
      have hs : specFirstReach ((k, w) :: rest) (cutoff - thr) =
          specFirstReach rest (cutoff - (thr + w)) := by
        rw [specFirstReach, if_neg (by intro hc; exact hcond (by linarith))]
        congr 1
        ring
      rw [hs]
      cases hsr : specFirstReach rest (cutoff - (thr + w)) with
      | some k2 => rfl
      | none =>
        cases rest with
        | nil => rfl
        | cons q qs =>
          rw [List.getLast?_cons_cons]
          cases hql : (q :: qs).getLast? with
          | some p => rfl
          | none => simp at hql

theorem wcLoop_isSome (l : List (ℕ × ℚ)) (c : ℕ) (thr cutoff : ℚ) :
    ∃ r, graph.wcLoop (some c) thr l cutoff = some r := by
  induction l generalizing c thr with
  | nil => exact ⟨c, rfl⟩
  | cons p rest ih =>
    obtain ⟨k, w⟩ := p
    show (∃ r, (if thr + w ≥ cutoff then some k
      else graph.wcLoop (some k) (thr + w) rest cutoff) = some r)
    by_cases hcond : thr + w ≥ cutoff
    · exact ⟨k, by rw [if_pos hcond]⟩
    · obtain ⟨r, hr⟩ := ih k (thr + w)
      exact ⟨r, by rw [if_neg hcond]; exact hr⟩

/-- C7 counterexample: the undirected sampler (graph.py 4-18) does not fail
on weights summing to one half (far outside any plausible tolerance): at
draw 3/10 it happily returns key 1.  The directed sampler (digraph.py 4-20)
fails on a weight sum within one trillionth of 1 (inside the claimed 1e-9
tolerance) because it compares the sum with 1 exactly.  Both refute the
claimed fail-iff-outside-tolerance contract. -/
theorem claim7_counterexample :
    graph.weighted_choice [(0, 1/4), (1, 1/4)] (3/10) = some 1 ∧
    ¬ |(([(0, (1 : ℚ)/4), (1, 1/4)]).map Prod.snd).sum - 1| ≤ 1/1000000000 ∧
    digraph.weighted_choice [(0, 1 + 1/1000000000000)] 0 = none ∧
    |(([(0, (1 : ℚ) + 1/1000000000000)]).map Prod.snd).sum - 1| ≤ 1/1000000000 := by
  refine ⟨?_, ?_, ?_, ?_⟩
  · show graph.wcLoop none 0 [(0, 1/4), (1, 1/4)] (3/10) = some 1
    rw [graph.wcLoop, if_neg (by norm_num), graph.wcLoop, if_pos (by norm_num)]
  · rw [abs_le]
    push_neg
    intro h
    norm_num at h
  · rw [digraph.weighted_choice, if_pos (by norm_num)]
  · rw [abs_le]
    constructor <;> norm_num

/-- C7 amended: the undirected sampler performs no validation and never
signals failure on a non-empty mapping (it always returns some key); both
samplers implement cumulative-sum selection: they return the first key whose
inclusive cumulative weight reaches or exceeds the draw, falling back to the
last key when no cumulative weight reaches it; the directed sampler alone
validates, failing exactly when the weights do not sum to 1 with exact
rational (not tolerance-based) equality. -/
theorem claim7_amended :
    (∀ (k : ℕ) (w : ℚ) (rest : List (ℕ × ℚ)) (cutoff : ℚ),
      ∃ r, graph.weighted_choice ((k, w) :: rest) cutoff = some r) ∧
    (∀ (l : List (ℕ × ℚ)) (cutoff : ℚ),
      graph.weighted_choice l cutoff =
        match specFirstReach l cutoff with
        | some k => some k
        | none => l.getLast?.map Prod.fst) ∧
    (∀ (l : List (ℕ × ℚ)) (cutoff : ℚ),
      digraph.weighted_choice l cutoff = none ↔ (l.map Prod.snd).sum ≠ 1) ∧
    (∀ (l : List (ℕ × ℚ)) (cutoff : ℚ), (l.map Prod.snd).sum = 1 →
      digraph.weighted_choice l cutoff =
        match specFirstReach l cutoff with
        | some k => some k
        | none => l.getLast?.map Prod.fst) := by
  have key : ∀ (l : List (ℕ × ℚ)) (cutoff : ℚ),
      graph.weighted_choice l cutoff =
        match specFirstReach l cutoff with
        | some k => some k
        | none => l.getLast?.map Prod.fst := by
    intro l cutoff
    rw [graph.weighted_choice, wcLoop_eq_spec, sub_zero]
    cases specFirstReach l cutoff with
    | some k => rfl
    | none =>
      cases l with
      | nil => rfl
      | cons q qs =>
        cases hql : (q :: qs).getLast? with
        | some p => rfl
        | none => simp at hql
  refine ⟨?_, key, ?_, ?_⟩
  · intro k w rest cutoff
    show ∃ r, (if (0 : ℚ) + w ≥ cutoff then some k
      else graph.wcLoop (some k) (0 + w) rest cutoff) = some r
    by_cases hcond : (0 : ℚ) + w ≥ cutoff
    · exact ⟨k, by rw [if_pos hcond]⟩
    · obtain ⟨r, hr⟩ := wcLoop_isSome rest k (0 + w) cutoff
      exact ⟨r, by rw [if_neg hcond]; exact hr⟩
  · intro l cutoff
    unfold digraph.weighted_choice
    by_cases hsum : (l.map Prod.snd).sum = 1
    · rw [if_neg (by simpa using hsum)]
      simp only [hsum]
      constructor
      · intro hnone
        cases l with
        | nil => simp at hsum
        | cons q qs =>
          obtain ⟨k, w⟩ := q
          have hne : (0 : ℚ) ≠ 1 := by norm_num
          have : ∃ r, graph.wcLoop none 0 ((k, w) :: qs) cutoff = some r := by
            show ∃ r, (if (0 : ℚ) + w ≥ cutoff then some k
              else graph.wcLoop (some k) (0 + w) qs cutoff) = some r
            by_cases hcond : (0 : ℚ) + w ≥ cutoff
            · exact ⟨k, by rw [if_pos hcond]⟩
            · obtain ⟨r, hr⟩ := wcLoop_isSome qs k (0 + w) cutoff
              exact ⟨r, by rw [if_neg hcond]; exact hr⟩
          obtain ⟨r, hr⟩ := this
          rw [hr] at hnone
          cases hnone
      · intro hne
        exact absurd rfl hne
    · rw [if_pos (by simpa using hsum)]
      simp [hsum]
  · intro l cutoff hsum
    rw [digraph.weighted_choice, if_neg (by simpa using hsum)]
    rw [← graph.weighted_choice, key]

/-- C7 amended witness at the singleton distribution with weight 1 and draw
one half. -/
theorem claim7_witness :
    digraph.weighted_choice [(0, 1)] (1/2) =
      match specFirstReach [(0, 1)] (1/2) with
      | some k => some k
      | none => ([(0, (1 : ℚ))].getLast?).map Prod.fst :=
  claim7_amended.2.2.2 [(0, 1)] (1/2) (by norm_num)

/-! ## C5: subgraph -/

theorem lookup_map_self (S : List ℕ) (f : ℕ → List ℕ) {v : ℕ} (hv : v ∈ S) :
    (S.map (fun x => (x, f x))).lookup v = some (f v) := by
  induction S with
  | nil => cases hv
  | cons a rest ih =>
    by_cases hva : v = a
    · subst hva
      show List.lookup v ((v, f v) :: rest.map (fun x => (x, f x))) = some (f v)
      rw [List.lookup, beq_self_eq_true]
    · have hv2 : v ∈ rest := by
        cases hv with
        | head => exact absurd rfl hva
        | tail _ h => exact h
      show List.lookup v ((a, f a) :: rest.map (fun x => (x, f x))) = some (f v)
      rw [List.lookup, beq_eq_false_iff_ne.mpr hva]
      exact ih hv2

/-- C5: for the undirected class, `subgraph(S)` with S a duplicate-free subset
of the vertices returns a new graph whose vertex set is exactly S and whose
adjacency keeps exactly the neighbours that lie in S (the source is read
only, never written, so it is unchanged — in the embedding `subgraph` is a
pure function of the source).  For the directed class the same call instead
raises `NameError`, because digraph.py line 74 applies the undefined name
`graph`: evaluated at the concrete digraph over vertices 0, 1 with edge
0 to 1 and subset [0], the embedded call yields `none` (the exception),
never a digraph. -/
theorem claim5_subgraph (g : graph.UGraph) (S : List ℕ)
    (hS : ∀ v ∈ S, v ∈ g.verts) (hnd : S.Nodup) :
    (graph.subgraph g S).verts = S ∧
    (∀ v ∈ S, ∀ u, u ∈ (graph.subgraph g S).adj v ↔ (u ∈ g.adj v ∧ u ∈ S)) ∧
    digraph.subgraph (digraph.ofVerts [0, 1] [(0, [1])]) [0] = none := by
  refine ⟨?_, ?_, rfl⟩
  · show S.dedup = S
    exact List.Nodup.dedup hnd
  · intro v hv u
    have hadj : (graph.subgraph g S).adj v =
        graph.seedGet (S.map (fun x => (x, (g.adj x).filter (· ∈ S)))) v := by
      simp [graph.subgraph, graph.ofVerts, hv]
    rw [hadj]
    unfold graph.seedGet
    rw [lookup_map_self S _ hv]
    simp

/-- C5 witness: the subgraph of the two-vertex graph on the subset [0]. -/
theorem claim5_witness :
    (graph.subgraph (graph.ofVerts [0, 1] []) [0]).verts = [0] ∧
    (∀ v ∈ [0], ∀ u, u ∈ (graph.subgraph (graph.ofVerts [0, 1] []) [0]).adj v ↔
      (u ∈ (graph.ofVerts [0, 1] []).adj v ∧ u ∈ [0])) ∧
    digraph.subgraph (digraph.ofVerts [0, 1] [(0, [1])]) [0] = none :=
  claim5_subgraph (graph.ofVerts [0, 1] []) [0] (by decide) (by decide)

/-! ## add_rand_edge (graph.py 75-97, digraph.py 76-94) -/

namespace graph

/-- The `choice_dict` built by `graph.add_rand_edge`: every key is mapped to
`(nv - degs[v] - 1) / norm` (Python ints divided by a float, modelled as exact
rationals). -/
def choiceList (g : UGraph) (norm : ℚ) : List (ℕ × ℚ) :=
  g.verts.map (fun x => (x, ((g.nv : ℚ) - (g.degs x : ℚ) - 1) / norm))

/-- The candidate-target list `[e for e in self.ve_dict if e != v and
e not in self.ve_dict[v]]` of `add_rand_edge`. -/
def targetsOf (g : UGraph) (v : ℕ) : List ℕ :=
  g.verts.filter (fun e => decide (e ≠ v ∧ e ∉ g.adj v))

/-- Embedding of `graph.add_rand_edge()` (graph.py lines 75-97) at a fixed
uniform draw `cutoff` for the weighted choice and a fixed selector `pick`
for `random.choice` (which picks the entry at `pick` modulo the candidate
count).  The result carries the new state, whether the completeness error
message was printed, and the Python return value (always `None`, modelled as
`Unit`); 'none' models an uncaught exception: `NameError` when the vertex
dict is empty, or `IndexError` from `random.choice` on an empty candidate
list. -/
def add_rand_edge (g : UGraph) (cutoff : ℚ) (pick : ℕ) : Option (UGraph × Bool × Unit) :=
  let norm : ℚ := (g.nv : ℚ) * ((g.nv : ℚ) - 1) - 2 * g.ne
  if norm ≠ 0 then
    match weighted_choice (choiceList g norm) cutoff with
    | none => none
    | some v =>
      match (targetsOf g v).get? (pick % (targetsOf g v).length) with
      | none => none
      | some w =>
        some ({ g with
            adj := Function.update (Function.update g.adj v (setAdd (g.adj v) w)) w
              (setAdd ((Function.update g.adj v (setAdd (g.adj v) w)) w) v)
            ne := g.ne + 1
            degs := Function.update (Function.update g.degs v (g.degs v + 1)) w
              ((Function.update g.degs v (g.degs v + 1)) w + 1) }, false, ())
  else some (g, true, ())

end graph

namespace digraph

/-- The `choice_dict` built by `digraph.add_rand_edge`. -/
def choiceList (g : DGraph) (norm : ℚ) : List (ℕ × ℚ) :=
  g.verts.map (fun x => (x, ((g.nv : ℚ) - (g.out_deg x : ℚ) - 1) / norm))

/-- The candidate-target list of `digraph.add_rand_edge`. -/
def targetsOf (g : DGraph) (v : ℕ) : List ℕ :=
  g.verts.filter (fun e => decide (e ≠ v ∧ e ∉ g.adj v))

/-- Embedding of `digraph.add_rand_edge()` (digraph.py lines 76-94), as for
the undirected variant.  The directed `weighted_choice` validates the weight
sum; on failure it returns the Python value `False`, which then flows into
the candidate comprehension where it either raises `KeyError` (when 0 is not
a key) or aliases the key 0 (Python bool-int equality); the model returns
`none` for that poisoned path — in exact rational arithmetic it is never
taken for the distributions the library itself builds, whose weights sum to
1 exactly.  On success the source inserts via `self.add_edge(v, w)`. -/
def add_rand_edge (g : DGraph) (cutoff : ℚ) (pick : ℕ) : Option (DGraph × Bool × Unit) :=
  let norm : ℚ := (g.nv : ℚ) * ((g.nv : ℚ) - 1) - (g.ne : ℚ)
  if norm ≠ 0 then
    match weighted_choice (choiceList g norm) cutoff with
    | none => none
    | some v =>
      match (targetsOf g v).get? (pick % (targetsOf g v).length) with
      | none => none
      | some w => some ((add_edge g v w).2, false, ())
  else some (g, true, ())

end digraph

/-! ## C6: behaviour of add_rand_edge on a complete graph -/

/-- C6 amended: on a complete graph or digraph (`edge_count` at the maximum
for `nv`) `add_rand_edge` prints the completeness error message and returns
the Python value `None` with the state unchanged; on a non-complete graph the
message is never printed.  The return value is `None` on the failure path
and on the success path alike, so the caller cannot distinguish exhaustion
from a successful insertion by the result — only the printed message (the
`true` flag of the model) signals it. -/
theorem claim6_amended :
    (∀ (g : graph.UGraph) (cutoff : ℚ) (pick : ℕ),
      (g.ne = (g.nv : ℚ) * ((g.nv : ℚ) - 1) / 2 →
        graph.add_rand_edge g cutoff pick = some (g, true, ())) ∧
      (g.ne ≠ (g.nv : ℚ) * ((g.nv : ℚ) - 1) / 2 →
        ∀ g2 flag r, graph.add_rand_edge g cutoff pick = some (g2, flag, r) →
          flag = false)) ∧
    (∀ (g : digraph.DGraph) (cutoff : ℚ) (pick : ℕ),
      ((g.ne : ℚ) = (g.nv : ℚ) * ((g.nv : ℚ) - 1) →
        digraph.add_rand_edge g cutoff pick = some (g, true, ())) ∧
      ((g.ne : ℚ) ≠ (g.nv : ℚ) * ((g.nv : ℚ) - 1) →
        ∀ g2 flag r, digraph.add_rand_edge g cutoff pick = some (g2, flag, r) →
          flag = false)) := by
  constructor
  · intro g cutoff pick
    constructor
    · intro hcomplete
      unfold graph.add_rand_edge
      rw [if_neg]
      push_neg
      rw [hcomplete]
      ring
    · intro hne g2 flag r hres
      unfold graph.add_rand_edge at hres
      rw [if_pos (by intro h0; exact hne (by linarith))] at hres
      split at hres
      · cases hres
      · split at hres
        · cases hres
        · cases hres
          rfl
  · intro g cutoff pick
    constructor
    · intro hcomplete
      unfold digraph.add_rand_edge
      rw [if_neg]
      push_neg
      rw [hcomplete]
      ring
    · intro hne g2 flag r hres
      unfold digraph.add_rand_edge at hres
      rw [if_pos (by intro h0; exact hne (by linarith))] at hres
      split at hres
      · cases hres
      · split at hres
        · cases hres
        · cases hres
          rfl

/-! ## Well-formedness of reachable graph states -/

/-- Shape of `graph.add_edge` on the success path. -/
theorem uadd_shape (g : graph.UGraph) (i j : ℕ)
    (hmem : i ∈ g.verts ∧ j ∈ g.verts) (hij : i ≠ j) (hadj : i ∉ g.adj j) :
    graph.add_edge g i j = (true,
      { g with
        ne := g.ne + 1
        degs := Function.update (Function.update g.degs i (g.degs i + 1)) j
          ((Function.update g.degs i (g.degs i + 1)) j + 1)
        adj := Function.update (Function.update g.adj i (graph.setAdd (g.adj i) j)) j
          (graph.setAdd ((Function.update g.adj i (graph.setAdd (g.adj i) j)) j) i) }) := by
  rw [graph.add_edge, if_pos hmem, if_neg hij, if_neg hadj]

/-- Invariant satisfied by every undirected graph state reachable from a
seedless construction: duplicate-free keys and neighbour sets, adjacency
confined to the keys, no self-loops, symmetry, and degree counters matching
the neighbour-set sizes. -/
structure UWF (g : graph.UGraph) : Prop where
  nodup : g.verts.Nodup
  nv_eq : g.nv = g.verts.length
  adj_nodup : ∀ v, (g.adj v).Nodup
  adj_mem : ∀ v u, u ∈ g.adj v → v ∈ g.verts ∧ u ∈ g.verts
  no_self : ∀ v, v ∉ g.adj v
  symm : ∀ v u, u ∈ g.adj v → v ∈ g.adj u
  deg_len : ∀ v, g.degs v = (g.adj v).length

/-- Directed counterpart of `UWF`. -/
structure DWF (g : digraph.DGraph) : Prop where
  nodup : g.verts.Nodup
  nv_eq : g.nv = g.verts.length
  adj_nodup : ∀ v, (g.adj v).Nodup
  adj_mem : ∀ v u, u ∈ g.adj v → v ∈ g.verts ∧ u ∈ g.verts
  no_self : ∀ v, v ∉ g.adj v
  deg_len : ∀ v, g.out_deg v = (g.adj v).length

theorem UWF_ofVerts (verts : List ℕ) (h : verts.Nodup) : UWF (graph.ofVerts verts []) := by
  have hadj : ∀ v, (graph.ofVerts verts []).adj v = [] := by
    intro v
    by_cases hv : v ∈ verts <;> simp [graph.ofVerts, graph.seedGet, List.lookup, hv]
  refine ⟨?_, ?_, ?_, ?_, ?_, ?_, ?_⟩
  · exact List.nodup_dedup verts
  · show verts.length = verts.dedup.length
    rw [List.Nodup.dedup h]
  · intro v
    rw [hadj v]
    exact List.nodup_nil
  · intro v u hu
    rw [hadj v] at hu
    cases hu
  · intro v hv
    rw [hadj v] at hv
    cases hv
  · intro v u hu
    rw [hadj v] at hu
    cases hu
  · intro v
    rw [hadj v]
    rfl

theorem DWF_ofVerts (verts : List ℕ) (h : verts.Nodup) : DWF (digraph.ofVerts verts []) := by
  have hadj : ∀ v, (digraph.ofVerts verts []).adj v = [] := by
    intro v
    by_cases hv : v ∈ verts <;> simp [digraph.ofVerts, graph.seedGet, List.lookup, hv]
  refine ⟨?_, ?_, ?_, ?_, ?_, ?_⟩
  · exact List.nodup_dedup verts
  · show verts.length = verts.dedup.length
    rw [List.Nodup.dedup h]
  · intro v
    rw [hadj v]
    exact List.nodup_nil
  · intro v u hu
    rw [hadj v] at hu
    cases hu
  · intro v hv
    rw [hadj v] at hv
    cases hv
  · intro v
    rw [hadj v]
    rfl

theorem UWF_add_edge (g : graph.UGraph) (hw : UWF g) (i j : ℕ) :
    UWF (graph.add_edge g i j).2 := by
  by_cases hfst : (graph.add_edge g i j).1 = true
  · have hcond := (uadd_spec g i j).1
    rw [hfst] at hcond
    have hnc : ¬ (i = j ∨ i ∉ g.verts ∨ j ∉ g.verts ∨ i ∈ g.adj j) := by
      intro hc
      exact absurd (hcond.mpr hc) (by simp)
    push_neg at hnc
    obtain ⟨hij, hiv, hjv, hnadj⟩ := hnc
    have hji : j ≠ i := fun h => hij h.symm
    have hjnadji : j ∉ g.adj i := fun h => hnadj (hw.symm i j h)
    rw [uadd_shape g i j ⟨hiv, hjv⟩ hij hnadj]
    have hshape : ∀ x,
        (Function.update (Function.update g.adj i (graph.setAdd (g.adj i) j)) j
          (graph.setAdd ((Function.update g.adj i (graph.setAdd (g.adj i) j)) j) i)) x =
        if x = j then graph.setAdd (g.adj j) i
        else if x = i then graph.setAdd (g.adj i) j
        else g.adj x := by
      intro x
      by_cases hxj : x = j
      · subst hxj
        rw [if_pos rfl, Function.update_same, Function.update_noteq hji]
      · rw [if_neg hxj, Function.update_noteq hxj]
        by_cases hxi : x = i
        · subst hxi
          rw [if_pos rfl, Function.update_same]
        · rw [if_neg hxi, Function.update_noteq hxi]
    have hmem : ∀ x u,
        u ∈ (Function.update (Function.update g.adj i (graph.setAdd (g.adj i) j)) j
          (graph.setAdd ((Function.update g.adj i (graph.setAdd (g.adj i) j)) j) i)) x ↔
        (u ∈ g.adj x ∨ (x = i ∧ u = j) ∨ (x = j ∧ u = i)) := by
      intro x u
      rw [hshape x]
      by_cases hxj : x = j
      · subst hxj
        rw [if_pos rfl, mem_setAdd]
        constructor
        · rintro (h | rfl)
          · exact Or.inl h
          · exact Or.inr (Or.inr ⟨rfl, rfl⟩)
        · rintro (h | ⟨rfl, rfl⟩ | ⟨_, rfl⟩)
          · exact Or.inl h
          · exact absurd rfl hji
          · exact Or.inr rfl
      · rw [if_neg hxj]
        by_cases hxi : x = i
        · subst hxi
          rw [if_pos rfl, mem_setAdd]
          constructor
          · rintro (h | rfl)
            · exact Or.inl h
            · exact Or.inr (Or.inl ⟨rfl, rfl⟩)
          · rintro (h | ⟨_, rfl⟩ | ⟨h1, _⟩)
            · exact Or.inl h
            · exact Or.inr rfl
            · exact absurd h1 hxj
        · rw [if_neg hxi]
          constructor
          · exact Or.inl
          · rintro (h | ⟨h1, _⟩ | ⟨h1, _⟩)
            · exact h
            · exact absurd h1 hxi
            · exact absurd h1 hxj
    have hdegs : ∀ x,
        (Function.update (Function.update g.degs i (g.degs i + 1)) j
          ((Function.update g.degs i (g.degs i + 1)) j + 1)) x =
        if x = j then g.degs j + 1
        else if x = i then g.degs i + 1
        else g.degs x := by
      intro x
      by_cases hxj : x = j
      · subst hxj
        rw [if_pos rfl, Function.update_same, Function.update_noteq hji]
      · rw [if_neg hxj, Function.update_noteq hxj]
        by_cases hxi : x = i
        · subst hxi
          rw [if_pos rfl, Function.update_same]
        · rw [if_neg hxi, Function.update_noteq hxi]
    refine ⟨hw.nodup, hw.nv_eq, ?_, ?_, ?_, ?_, ?_⟩
    · intro v
      dsimp only
      rw [hshape v]
      by_cases hvj : v = j
      · rw [if_pos hvj]
        exact nodup_setAdd _ _ (hw.adj_nodup j)
      · rw [if_neg hvj]
        by_cases hvi : v = i
        · rw [if_pos hvi]
          exact nodup_setAdd _ _ (hw.adj_nodup i)
        · rw [if_neg hvi]
          exact hw.adj_nodup v
    · intro v u hu
      dsimp only at hu
      rw [hmem v u] at hu
      rcases hu with h | ⟨rfl, rfl⟩ | ⟨rfl, rfl⟩
      · exact hw.adj_mem v u h
      · exact ⟨hiv, hjv⟩
      · exact ⟨hjv, hiv⟩
    · intro v hv
      dsimp only at hv
      rw [hmem v v] at hv
      rcases hv with h | ⟨rfl, h2⟩ | ⟨rfl, h2⟩
      · exact hw.no_self v h
      · exact hij h2
      · exact hji h2
    · intro v u hu
      dsimp only at hu ⊢
      rw [hmem v u] at hu
      rw [hmem u v]
      rcases hu with h | ⟨rfl, rfl⟩ | ⟨rfl, rfl⟩
      · exact Or.inl (hw.symm v u h)
      · exact Or.inr (Or.inr ⟨rfl, rfl⟩)
      · exact Or.inr (Or.inl ⟨rfl, rfl⟩)
    · intro v
      dsimp only
      rw [hdegs v, hshape v]
      by_cases hvj : v = j
      · rw [if_pos hvj, if_pos hvj, length_setAdd_not_mem _ _ hnadj, hw.deg_len j]
      · rw [if_neg hvj, if_neg hvj]
        by_cases hvi : v = i
        · rw [if_pos hvi, if_pos hvi, length_setAdd_not_mem _ _ hjnadji, hw.deg_len i]
        · rw [if_neg hvi, if_neg hvi]
          exact hw.deg_len v
  · have hb : (graph.add_edge g i j).1 = false := by
      revert hfst
      cases (graph.add_edge g i j).1 <;> simp
    rw [(uadd_spec g i j).2.1 hb]
    exact hw

theorem DWF_add_edge (g : digraph.DGraph) (hw : DWF g) (v w : ℕ) :
    DWF (digraph.add_edge g v w).2 := by
  by_cases hfst : (digraph.add_edge g v w).1 = true
  · have hcond := (dadd_spec g v w).1
    rw [hfst] at hcond
    have hnc : ¬ (v = w ∨ v ∉ g.verts ∨ w ∉ g.verts ∨ w ∈ g.adj v) := by
      intro hc
      exact absurd (hcond.mpr hc) (by simp)
    push_neg at hnc
    obtain ⟨hvw, hvv, hwv, hnadj⟩ := hnc
    have heq : digraph.add_edge g v w = (true,
        { g with
          ne := g.ne + 1
          out_deg := Function.update g.out_deg v (g.out_deg v + 1)
          adj := Function.update g.adj v (graph.setAdd (g.adj v) w) }) := by
      rw [digraph.add_edge, if_pos ⟨hvv, hwv⟩, if_neg hvw, if_neg hnadj]
    rw [heq]
    have hshape : ∀ x, (Function.update g.adj v (graph.setAdd (g.adj v) w)) x =
        if x = v then graph.setAdd (g.adj v) w else g.adj x := by
      intro x
      by_cases hxv : x = v
      · subst hxv
        rw [if_pos rfl, Function.update_same]
      · rw [if_neg hxv, Function.update_noteq hxv]
    refine ⟨hw.nodup, hw.nv_eq, ?_, ?_, ?_, ?_⟩
    · intro x
      dsimp only
      rw [hshape x]
      by_cases hxv : x = v
      · rw [if_pos hxv]
        exact nodup_setAdd _ _ (hw.adj_nodup v)
      · rw [if_neg hxv]
        exact hw.adj_nodup x
    · intro x u hu
      dsimp only at hu
      rw [hshape x] at hu
      by_cases hxv : x = v
      · rw [if_pos hxv] at hu
        rw [mem_setAdd] at hu
        subst hxv
        rcases hu with h | rfl
        · exact hw.adj_mem x u h
        · exact ⟨hvv, hwv⟩
      · rw [if_neg hxv] at hu
        exact hw.adj_mem x u hu
    · intro x hx
      dsimp only at hx
      rw [hshape x] at hx
      by_cases hxv : x = v
      · rw [if_pos hxv] at hx
        rw [mem_setAdd] at hx
        subst hxv
        rcases hx with h | h
        · exact hw.no_self x h
        · exact hvw h
      · rw [if_neg hxv] at hx
        exact hw.no_self x hx
    · intro x
      dsimp only
      rw [hshape x]
      by_cases hxv : x = v
      · subst hxv
        rw [if_pos rfl, Function.update_same, length_setAdd_not_mem _ _ hnadj, hw.deg_len x]
      · rw [if_neg hxv, Function.update_noteq hxv]
        exact hw.deg_len x
  · have hb : (digraph.add_edge g v w).1 = false := by
      revert hfst
      cases (digraph.add_edge g v w).1 <;> simp
    rw [(dadd_spec g v w).2.1 hb]
    exact hw

theorem UWF_addEdges (verts : List ℕ) (h : verts.Nodup) (ops : List (ℕ × ℕ)) :
    UWF (graph.addEdges (graph.ofVerts verts []) ops) := by
  suffices hstep : ∀ (ops : List (ℕ × ℕ)) (g : graph.UGraph), UWF g →
      UWF (graph.addEdges g ops) by
    exact hstep ops _ (UWF_ofVerts verts h)
  intro ops
  induction ops with
  | nil => exact fun g hg => hg
  | cons p rest ih => exact fun g hg => ih _ (UWF_add_edge g hg p.1 p.2)

theorem DWF_addEdges (verts : List ℕ) (h : verts.Nodup) (ops : List (ℕ × ℕ)) :
    DWF (digraph.addEdges (digraph.ofVerts verts []) ops) := by
  suffices hstep : ∀ (ops : List (ℕ × ℕ)) (g : digraph.DGraph), DWF g →
      DWF (digraph.addEdges g ops) by
    exact hstep ops _ (DWF_ofVerts verts h)
  intro ops
  induction ops with
  | nil => exact fun g hg => hg
  | cons p rest ih => exact fun g hg => ih _ (DWF_add_edge g hg p.1 p.2)

/-! ## C8: the weight distribution of add_rand_edge -/

theorem list_map_div_sum (l : List ℕ) (f : ℕ → ℚ) (c : ℚ) :
    (l.map (fun x => f x / c)).sum = (l.map f).sum / c := by
  induction l with
  | nil => simp
  | cons x xs ih => simp [ih, add_div]

/-- If every weight is non-negative, the loop threshold is still below the
draw, and the total remaining mass reaches the draw, then the loop selects
some key of positive weight. -/
theorem wcLoop_pos (l : List (ℕ × ℚ)) (cur : Option ℕ) (thr cutoff : ℚ)
    (hw : ∀ p ∈ l, 0 ≤ p.2) (hthr : thr < cutoff)
    (hsum : cutoff ≤ thr + (l.map Prod.snd).sum) :
    ∃ p ∈ l, graph.wcLoop cur thr l cutoff = some p.1 ∧ 0 < p.2 := by
  induction l generalizing cur thr with
  | nil =>
    exfalso
    simp at hsum
    linarith
  | cons q rest ih =>
    obtain ⟨k, w⟩ := q
    by_cases hcond : thr + w ≥ cutoff
    · refine ⟨(k, w), List.mem_cons_self _ _, ?_, ?_⟩
      · show (if thr + w ≥ cutoff then some k
          else graph.wcLoop (some k) (thr + w) rest cutoff) = some k
        rw [if_pos hcond]
      · linarith
    · have hw2 : ∀ p ∈ rest, 0 ≤ p.2 := fun p hp => hw p (List.mem_cons_of_mem _ hp)
      have hthr2 : thr + w < cutoff := lt_of_not_le hcond
      have hsum2 : cutoff ≤ (thr + w) + (rest.map Prod.snd).sum := by
        simp at hsum
        linarith
      obtain ⟨p, hp, hloop, hpos⟩ := ih (some k) (thr + w) hw2 hthr2 hsum2
      refine ⟨p, List.mem_cons_of_mem _ hp, ?_, hpos⟩
      show (if thr + w ≥ cutoff then some k
        else graph.wcLoop (some k) (thr + w) rest cutoff) = some p.1
      rw [if_neg hcond]
      exact hloop

theorem udeg_le (g : graph.UGraph) (hw : UWF g) (hnv : 1 ≤ g.nv) (x : ℕ) :
    (g.degs x : ℚ) ≤ (g.nv : ℚ) - 1 := by
  have hnat : g.degs x ≤ g.nv - 1 := by
    cases hadj : g.adj x with
    | nil =>
      rw [hw.deg_len x, hadj]
      exact Nat.zero_le _
    | cons a rest =>
      have hxv : x ∈ g.verts := by
        have := hw.adj_mem x a (by rw [hadj]; exact List.mem_cons_self _ _)
        exact this.1
      have hsub : (g.adj x).toFinset ⊆ g.verts.toFinset.erase x := by
        intro u hu
        rw [List.mem_toFinset] at hu
        refine Finset.mem_erase.mpr ⟨?_, List.mem_toFinset.mpr (hw.adj_mem x u hu).2⟩
        intro hux
        exact hw.no_self x (hux ▸ hu)
      have hcard : (g.adj x).toFinset.card ≤ g.verts.toFinset.card - 1 := by
        have h1 := Finset.card_le_card hsub
        rw [Finset.card_erase_of_mem (List.mem_toFinset.mpr hxv)] at h1
        exact h1
      rw [hw.deg_len x, ← List.toFinset_card_of_nodup (hw.adj_nodup x), ← hadj] at *
      rw [List.toFinset_card_of_nodup hw.nodup] at hcard
      rw [← hw.nv_eq] at hcard
      exact hcard
  have : (g.degs x : ℚ) ≤ ((g.nv - 1 : ℕ) : ℚ) := by exact_mod_cast hnat
  calc (g.degs x : ℚ) ≤ ((g.nv - 1 : ℕ) : ℚ) := this
    _ = (g.nv : ℚ) - 1 := by
        rw [Nat.cast_sub hnv]
        norm_num

theorem ddeg_le (g : digraph.DGraph) (hw : DWF g) (hnv : 1 ≤ g.nv) (x : ℕ) :
    (g.out_deg x : ℚ) ≤ (g.nv : ℚ) - 1 := by
  have hnat : g.out_deg x ≤ g.nv - 1 := by
    cases hadj : g.adj x with
    | nil =>
      rw [hw.deg_len x, hadj]
      exact Nat.zero_le _
    | cons a rest =>
      have hxv : x ∈ g.verts := by
        have := hw.adj_mem x a (by rw [hadj]; exact List.mem_cons_self _ _)
        exact this.1
      have hsub : (g.adj x).toFinset ⊆ g.verts.toFinset.erase x := by
        intro u hu
        rw [List.mem_toFinset] at hu
        refine Finset.mem_erase.mpr ⟨?_, List.mem_toFinset.mpr (hw.adj_mem x u hu).2⟩
        intro hux
        exact hw.no_self x (hux ▸ hu)
      have hcard : (g.adj x).toFinset.card ≤ g.verts.toFinset.card - 1 := by
        have h1 := Finset.card_le_card hsub
        rw [Finset.card_erase_of_mem (List.mem_toFinset.mpr hxv)] at h1
        exact h1
      rw [hw.deg_len x, ← List.toFinset_card_of_nodup (hw.adj_nodup x), ← hadj] at *
      rw [List.toFinset_card_of_nodup hw.nodup] at hcard
      rw [← hw.nv_eq] at hcard
      exact hcard
  have : (g.out_deg x : ℚ) ≤ ((g.nv - 1 : ℕ) : ℚ) := by exact_mod_cast hnat
  calc (g.out_deg x : ℚ) ≤ ((g.nv - 1 : ℕ) : ℚ) := this
    _ = (g.nv : ℚ) - 1 := by
        rw [Nat.cast_sub hnv]
        norm_num

theorem uweights_sum (g : graph.UGraph) (hw : UWF g) (hne : goodNe g) (norm : ℚ)
    (hnorm : norm = (g.nv : ℚ) * ((g.nv : ℚ) - 1) - 2 * g.ne) (h0 : norm ≠ 0) :
    ((graph.choiceList g norm).map Prod.snd).sum = 1 := by
  obtain ⟨n, hneq, hsum⟩ := hne
  have h1 : (graph.choiceList g norm).map Prod.snd =
      g.verts.map (fun x => ((g.nv : ℚ) - (g.degs x : ℚ) - 1) / norm) := by
    unfold graph.choiceList
    rw [List.map_map]
    rfl
  rw [h1, list_map_div_sum]
  have h2 : (g.verts.map (fun x => (g.nv : ℚ) - (g.degs x : ℚ) - 1)).sum =
      ∑ v ∈ g.verts.toFinset, ((g.nv : ℚ) - (g.degs v : ℚ) - 1) :=
    (List.sum_toFinset _ hw.nodup).symm
  rw [h2]
  have hcard : (g.verts.toFinset.card : ℚ) = (g.nv : ℚ) := by
    rw [List.toFinset_card_of_nodup hw.nodup, hw.nv_eq]
  have hdegsum : ∑ v ∈ g.verts.toFinset, (g.degs v : ℚ) = 2 * g.ne := by
    rw [← Nat.cast_sum, ← hsum, hneq]
    push_cast
    ring
  have h3 : ∑ v ∈ g.verts.toFinset, ((g.nv : ℚ) - (g.degs v : ℚ) - 1) =
      (g.verts.toFinset.card : ℚ) * (g.nv : ℚ) -
        (∑ v ∈ g.verts.toFinset, (g.degs v : ℚ)) - (g.verts.toFinset.card : ℚ) := by
    rw [Finset.sum_sub_distrib, Finset.sum_sub_distrib, Finset.sum_const, Finset.sum_const]
    simp [nsmul_eq_mul]
  rw [h3, hdegsum, hcard]
  have h4 : (g.nv : ℚ) * (g.nv : ℚ) - 2 * g.ne - (g.nv : ℚ) = norm := by
    rw [hnorm]
    ring
  rw [h4]
  exact div_self h0

theorem dweights_sum (g : digraph.DGraph) (hw : DWF g) (hne : goodNeD g) (norm : ℚ)
    (hnorm : norm = (g.nv : ℚ) * ((g.nv : ℚ) - 1) - (g.ne : ℚ)) (h0 : norm ≠ 0) :
    ((digraph.choiceList g norm).map Prod.snd).sum = 1 := by
  have h1 : (digraph.choiceList g norm).map Prod.snd =
      g.verts.map (fun x => ((g.nv : ℚ) - (g.out_deg x : ℚ) - 1) / norm) := by
    unfold digraph.choiceList
    rw [List.map_map]
    rfl
  rw [h1, list_map_div_sum]
  have h2 : (g.verts.map (fun x => (g.nv : ℚ) - (g.out_deg x : ℚ) - 1)).sum =
      ∑ v ∈ g.verts.toFinset, ((g.nv : ℚ) - (g.out_deg v : ℚ) - 1) :=
    (List.sum_toFinset _ hw.nodup).symm
  rw [h2]
  have hcard : (g.verts.toFinset.card : ℚ) = (g.nv : ℚ) := by
    rw [List.toFinset_card_of_nodup hw.nodup, hw.nv_eq]
  have hdegsum : ∑ v ∈ g.verts.toFinset, (g.out_deg v : ℚ) = (g.ne : ℚ) := by
    rw [← Nat.cast_sum]
    exact_mod_cast hne.symm
  have h3 : ∑ v ∈ g.verts.toFinset, ((g.nv : ℚ) - (g.out_deg v : ℚ) - 1) =
      (g.verts.toFinset.card : ℚ) * (g.nv : ℚ) -
        (∑ v ∈ g.verts.toFinset, (g.out_deg v : ℚ)) - (g.verts.toFinset.card : ℚ) := by
    rw [Finset.sum_sub_distrib, Finset.sum_sub_distrib, Finset.sum_const, Finset.sum_const]
    simp [nsmul_eq_mul]
  rw [h3, hdegsum, hcard]
  have h4 : (g.nv : ℚ) * (g.nv : ℚ) - (g.ne : ℚ) - (g.nv : ℚ) = norm := by
    rw [hnorm]
    ring
  rw [h4]
  exact div_self h0

theorem unv_ge_two (g : graph.UGraph) (hne : goodNe g)
    (h0 : 0 < (g.nv : ℚ) * ((g.nv : ℚ) - 1) - 2 * g.ne) : 2 ≤ g.nv := by
  obtain ⟨n, hneq, _⟩ := hne
  rw [hneq] at h0
  by_contra hlt
  push_neg at hlt
  interval_cases hnv : g.nv
  · push_cast at h0
    have hn : (0 : ℚ) ≤ (n : ℚ) := Nat.cast_nonneg n
    linarith
  · push_cast at h0
    have hn : (0 : ℚ) ≤ (n : ℚ) := Nat.cast_nonneg n
    linarith

theorem dnv_ge_two (g : digraph.DGraph)
    (h0 : 0 < (g.nv : ℚ) * ((g.nv : ℚ) - 1) - (g.ne : ℚ)) : 2 ≤ g.nv := by
  by_contra hlt
  push_neg at hlt
  interval_cases hnv : g.nv
  · push_cast at h0
    have hn : (0 : ℚ) ≤ (g.ne : ℚ) := Nat.cast_nonneg _
    linarith
  · push_cast at h0
    have hn : (0 : ℚ) ≤ (g.ne : ℚ) := Nat.cast_nonneg _
    linarith

theorem uchoice_core (g : graph.UGraph) (hw : UWF g) (hne : goodNe g) (norm cutoff : ℚ)
    (hnorm : norm = (g.nv : ℚ) * ((g.nv : ℚ) - 1) - 2 * g.ne) (h0 : 0 < norm)
    (hc1 : 0 < cutoff) (hc2 : cutoff ≤ 1) :
    ∃ v, graph.weighted_choice (graph.choiceList g norm) cutoff = some v ∧
      v ∈ g.verts ∧ 0 < ((g.nv : ℚ) - (g.degs v : ℚ) - 1) / norm := by
  have hnv : 2 ≤ g.nv := unv_ge_two g hne (hnorm ▸ h0)
  have hnonneg : ∀ p ∈ graph.choiceList g norm, 0 ≤ p.2 := by
    intro p hp
    unfold graph.choiceList at hp
    rw [List.mem_map] at hp
    obtain ⟨x, hx, rfl⟩ := hp
    have hb := udeg_le g hw (by omega) x
    have : (0 : ℚ) ≤ (g.nv : ℚ) - (g.degs x : ℚ) - 1 := by linarith
    exact div_nonneg this (le_of_lt h0)
  have hsum := uweights_sum g hw hne norm hnorm (ne_of_gt h0)
  obtain ⟨p, hp, hloop, hpos⟩ := wcLoop_pos (graph.choiceList g norm) none 0 cutoff
    hnonneg hc1 (by rw [hsum]; linarith)
  have hpmem := hp
  unfold graph.choiceList at hpmem
  rw [List.mem_map] at hpmem
  obtain ⟨x, hx, hpx⟩ := hpmem
  refine ⟨p.1, ?_, ?_, ?_⟩
  · rw [graph.weighted_choice]
    exact hloop
  · rw [← hpx]
    exact hx
  · rw [← hpx] at hpos ⊢
    exact hpos

theorem dchoice_core (g : digraph.DGraph) (hw : DWF g) (hne : goodNeD g) (norm cutoff : ℚ)
    (hnorm : norm = (g.nv : ℚ) * ((g.nv : ℚ) - 1) - (g.ne : ℚ)) (h0 : 0 < norm)
    (hc1 : 0 < cutoff) (hc2 : cutoff ≤ 1) :
    ∃ v, digraph.weighted_choice (digraph.choiceList g norm) cutoff = some v ∧
      v ∈ g.verts ∧ 0 < ((g.nv : ℚ) - (g.out_deg v : ℚ) - 1) / norm := by
  have hnv : 2 ≤ g.nv := dnv_ge_two g (hnorm ▸ h0)
  have hnonneg : ∀ p ∈ digraph.choiceList g norm, 0 ≤ p.2 := by
    intro p hp
    unfold digraph.choiceList at hp
    rw [List.mem_map] at hp
    obtain ⟨x, hx, rfl⟩ := hp
    have hb := ddeg_le g hw (by omega) x
    have : (0 : ℚ) ≤ (g.nv : ℚ) - (g.out_deg x : ℚ) - 1 := by linarith
    exact div_nonneg this (le_of_lt h0)
  have hsum := dweights_sum g hw hne norm hnorm (ne_of_gt h0)
  obtain ⟨p, hp, hloop, hpos⟩ := wcLoop_pos (digraph.choiceList g norm) none 0 cutoff
    hnonneg hc1 (by rw [hsum]; linarith)
  have hpmem := hp
  unfold digraph.choiceList at hpmem
  rw [List.mem_map] at hpmem
  obtain ⟨x, hx, hpx⟩ := hpmem
  refine ⟨p.1, ?_, ?_, ?_⟩
  · rw [digraph.weighted_choice, if_neg (by rw [hsum]; simp)]
    exact hloop
  · rw [← hpx]
    exact hx
  · rw [← hpx] at hpos ⊢
    exact hpos

theorem utargets_ne_nil (g : graph.UGraph) (hw : UWF g) {v : ℕ} (hv : v ∈ g.verts)
    (norm : ℚ) (h0 : 0 < norm)
    (hpos : 0 < ((g.nv : ℚ) - (g.degs v : ℚ) - 1) / norm) :
    graph.targetsOf g v ≠ [] := by
  have hnum : 0 < (g.nv : ℚ) - (g.degs v : ℚ) - 1 := by
    rcases div_pos_iff.mp hpos with ⟨h1, _⟩ | ⟨_, h2⟩
    · exact h1
    · linarith
  have hdeg : g.degs v + 1 < g.nv := by exact_mod_cast (by push_cast; linarith :
      ((g.degs v + 1 : ℕ) : ℚ) < (g.nv : ℚ))
  intro hempty
  have hall : ∀ e ∈ g.verts, e = v ∨ e ∈ g.adj v := by
    intro e he
    by_contra hcontra
    push_neg at hcontra
    have : e ∈ graph.targetsOf g v := by
      unfold graph.targetsOf
      rw [List.mem_filter]
      refine ⟨he, ?_⟩
      simp only [decide_eq_true_eq]
      exact ⟨hcontra.1, hcontra.2⟩
    rw [hempty] at this
    cases this
  have hsub : g.verts.toFinset ⊆ insert v (g.adj v).toFinset := by
    intro e he
    rw [List.mem_toFinset] at he
    rcases hall e he with rfl | hmem
    · exact Finset.mem_insert_self _ _
    · exact Finset.mem_insert_of_mem (List.mem_toFinset.mpr hmem)
  have hc1 := Finset.card_le_card hsub
  have hc2 := Finset.card_insert_le v (g.adj v).toFinset
  rw [List.toFinset_card_of_nodup hw.nodup] at hc1
  rw [List.toFinset_card_of_nodup (hw.adj_nodup v)] at hc2
  rw [← hw.deg_len v] at hc2
  rw [← hw.nv_eq] at hc1
  omega

theorem dtargets_ne_nil (g : digraph.DGraph) (hw : DWF g) {v : ℕ} (hv : v ∈ g.verts)
    (norm : ℚ) (h0 : 0 < norm)
    (hpos : 0 < ((g.nv : ℚ) - (g.out_deg v : ℚ) - 1) / norm) :
    digraph.targetsOf g v ≠ [] := by
  have hnum : 0 < (g.nv : ℚ) - (g.out_deg v : ℚ) - 1 := by
    rcases div_pos_iff.mp hpos with ⟨h1, _⟩ | ⟨_, h2⟩
    · exact h1
    · linarith
  have hdeg : g.out_deg v + 1 < g.nv := by exact_mod_cast (by push_cast; linarith :
      ((g.out_deg v + 1 : ℕ) : ℚ) < (g.nv : ℚ))
  intro hempty
  have hall : ∀ e ∈ g.verts, e = v ∨ e ∈ g.adj v := by
    intro e he
    by_contra hcontra
    push_neg at hcontra
    have : e ∈ digraph.targetsOf g v := by
      unfold digraph.targetsOf
      rw [List.mem_filter]
      refine ⟨he, ?_⟩
      simp only [decide_eq_true_eq]
      exact ⟨hcontra.1, hcontra.2⟩
    rw [hempty] at this
    cases this
  have hsub : g.verts.toFinset ⊆ insert v (g.adj v).toFinset := by
    intro e he
    rw [List.mem_toFinset] at he
    rcases hall e he with rfl | hmem
    · exact Finset.mem_insert_self _ _
    · exact Finset.mem_insert_of_mem (List.mem_toFinset.mpr hmem)
  have hc1 := Finset.card_le_card hsub
  have hc2 := Finset.card_insert_le v (g.adj v).toFinset
  rw [List.toFinset_card_of_nodup hw.nodup] at hc1
  rw [List.toFinset_card_of_nodup (hw.adj_nodup v)] at hc2
  rw [← hw.deg_len v] at hc2
  rw [← hw.nv_eq] at hc1
  omega

theorem uare_some (g : graph.UGraph) (hw : UWF g) (hne : goodNe g) (cutoff : ℚ) (pick : ℕ)
    (h0 : 0 < (g.nv : ℚ) * ((g.nv : ℚ) - 1) - 2 * g.ne)
    (hc1 : 0 < cutoff) (hc2 : cutoff ≤ 1) :
    ∃ g2, graph.add_rand_edge g cutoff pick = some (g2, false, ()) := by
  obtain ⟨v, hwc, hv, hpos⟩ := uchoice_core g hw hne
    ((g.nv : ℚ) * ((g.nv : ℚ) - 1) - 2 * g.ne) cutoff rfl h0 hc1 hc2
  have hne_nil := utargets_ne_nil g hw hv _ h0 hpos
  have hlen : 0 < (graph.targetsOf g v).length := List.length_pos.mpr hne_nil
  have hmod : pick % (graph.targetsOf g v).length < (graph.targetsOf g v).length :=
    Nat.mod_lt pick hlen
  unfold graph.add_rand_edge
  rw [if_pos (ne_of_gt h0)]
  rw [hwc]
  dsimp only
  rw [List.get?_eq_get hmod]
  exact ⟨_, rfl⟩

theorem dare_some (g : digraph.DGraph) (hw : DWF g) (hne : goodNeD g) (cutoff : ℚ) (pick : ℕ)
    (h0 : 0 < (g.nv : ℚ) * ((g.nv : ℚ) - 1) - (g.ne : ℚ))
    (hc1 : 0 < cutoff) (hc2 : cutoff ≤ 1) :
    ∃ g2, digraph.add_rand_edge g cutoff pick = some (g2, false, ()) := by
  obtain ⟨v, hwc, hv, hpos⟩ := dchoice_core g hw hne
    ((g.nv : ℚ) * ((g.nv : ℚ) - 1) - (g.ne : ℚ)) cutoff rfl h0 hc1 hc2
  have hne_nil := dtargets_ne_nil g hw hv _ h0 hpos
  have hlen : 0 < (digraph.targetsOf g v).length := List.length_pos.mpr hne_nil
  have hmod : pick % (digraph.targetsOf g v).length < (digraph.targetsOf g v).length :=
    Nat.mod_lt pick hlen
  unfold digraph.add_rand_edge
  rw [if_pos (ne_of_gt h0)]
  rw [hwc]
  dsimp only
  rw [List.get?_eq_get hmod]
  exact ⟨_, rfl⟩

theorem ofVertsU_ne_nil_seed (verts : List ℕ) : (graph.ofVerts verts []).ne = 0 := by
  simp [graph.ofVerts, graph.seedGet, List.lookup]

theorem uadd_true (g : graph.UGraph) (i j : ℕ) (h1 : i ≠ j) (h2 : i ∈ g.verts)
    (h3 : j ∈ g.verts) (h4 : i ∉ g.adj j) : (graph.add_edge g i j).1 = true := by
  cases hb : (graph.add_edge g i j).1 with
  | true => rfl
  | false =>
    rcases (uadd_spec g i j).1.mp hb with h | h | h | h
    · exact absurd h h1
    · exact absurd h2 h
    · exact absurd h3 h
    · exact absurd h h4

/-- The example graph on vertices 0, 1, 2 with edges 0-1 and 0-2: vertex 0 is
saturated (degree nv-1) and comes first in iteration order. -/
def gZW : graph.UGraph := graph.addEdges (graph.ofVerts [0, 1, 2] []) [(0, 1), (0, 2)]

/-- A graph seeded with edges, whose degree counters are stale. -/
def gSeed3 : graph.UGraph := graph.ofVerts [0, 1, 2] [(0, [1]), (1, [0])]

/-- The empty two-vertex graph. -/
def gK2e : graph.UGraph := graph.ofVerts [0, 1] []

/-- The complete two-vertex graph. -/
def gK2c : graph.UGraph := graph.addEdges (graph.ofVerts [0, 1] []) [(0, 1)]

theorem gZW_ne : gZW.ne = 2 := by
  have hg : gZW = (graph.add_edge (graph.add_edge (graph.ofVerts [0, 1, 2] []) 0 1).2 0 2).2 :=
    rfl
  have f1 : (graph.add_edge (graph.ofVerts [0, 1, 2] []) 0 1).1 = true :=
    uadd_true _ 0 1 (by decide) (by decide) (by decide) (by decide)
  have f2 : (graph.add_edge (graph.add_edge (graph.ofVerts [0, 1, 2] []) 0 1).2 0 2).1 = true :=
    uadd_true _ 0 2 (by decide) (by decide) (by decide) (by decide)
  have hne1 := ((uadd_spec (graph.ofVerts [0, 1, 2] []) 0 1).2.2 f1).2.2.1
  have hne2 := ((uadd_spec (graph.add_edge (graph.ofVerts [0, 1, 2] []) 0 1).2 0 2).2.2 f2).2.2.1
  rw [hg, hne2, hne1, ofVertsU_ne_nil_seed]
  norm_num

theorem gK2c_ne : gK2c.ne = 1 := by
  have hg : gK2c = (graph.add_edge (graph.ofVerts [0, 1] []) 0 1).2 := rfl
  have f1 : (graph.add_edge (graph.ofVerts [0, 1] []) 0 1).1 = true :=
    uadd_true _ 0 1 (by decide) (by decide) (by decide) (by decide)
  have hne1 := ((uadd_spec (graph.ofVerts [0, 1] []) 0 1).2.2 f1).2.2.1
  rw [hg, hne1, ofVertsU_ne_nil_seed]
  norm_num

/-- C8 amended: for every graph or digraph reachable from a seedless
construction with duplicate-free vertices, when the graph is not complete
(positive norm) the per-vertex weights built by `add_rand_edge` sum to
exactly 1 (in exact rational arithmetic); and for every uniform draw in the
OPEN interval (0, 1) the selected vertex has weight greater than zero, the
target set handed to `random.choice` is non-empty, and the call cannot raise.
(At draw exactly 0 a zero-weight saturated vertex can be selected and the
call crashes — see the counterexample — and on seeded graphs the weights
need not sum to 1.) -/
theorem claim8_amended :
    (∀ (verts : List ℕ) (ops : List (ℕ × ℕ)) (g : graph.UGraph)
        (norm cutoff : ℚ) (pick : ℕ),
      verts.Nodup → g = graph.addEdges (graph.ofVerts verts []) ops →
      norm = (g.nv : ℚ) * ((g.nv : ℚ) - 1) - 2 * g.ne → 0 < norm →
      0 < cutoff → cutoff < 1 →
      ((graph.choiceList g norm).map Prod.snd).sum = 1 ∧
      (∀ v, graph.weighted_choice (graph.choiceList g norm) cutoff = some v →
        0 < ((g.nv : ℚ) - (g.degs v : ℚ) - 1) / norm ∧ graph.targetsOf g v ≠ []) ∧
      graph.add_rand_edge g cutoff pick ≠ none) ∧
    (∀ (verts : List ℕ) (ops : List (ℕ × ℕ)) (g : digraph.DGraph)
        (norm cutoff : ℚ) (pick : ℕ),
      verts.Nodup → g = digraph.addEdges (digraph.ofVerts verts []) ops →
      norm = (g.nv : ℚ) * ((g.nv : ℚ) - 1) - (g.ne : ℚ) → 0 < norm →
      0 < cutoff → cutoff < 1 →
      ((digraph.choiceList g norm).map Prod.snd).sum = 1 ∧
      (∀ v, digraph.weighted_choice (digraph.choiceList g norm) cutoff = some v →
        0 < ((g.nv : ℚ) - (g.out_deg v : ℚ) - 1) / norm ∧ digraph.targetsOf g v ≠ []) ∧
      digraph.add_rand_edge g cutoff pick ≠ none) := by
  constructor
  · intro verts ops g norm cutoff pick hnd hg hnorm h0 hc1 hc2
    subst hg
    have hw := UWF_addEdges verts hnd ops
    have hne := goodNe_addEdges _ (goodNe_ofVerts verts) ops
    refine ⟨uweights_sum _ hw hne norm hnorm (ne_of_gt h0), ?_, ?_⟩
    · intro v hwc
      obtain ⟨v2, hwc2, hv2, hpos2⟩ := uchoice_core _ hw hne norm cutoff hnorm h0 hc1
        (le_of_lt hc2)
      rw [hwc] at hwc2
      injection hwc2 with hvv
      subst hvv
      exact ⟨hpos2, utargets_ne_nil _ hw hv2 norm h0 hpos2⟩
    · obtain ⟨g2, hg2⟩ := uare_some _ hw hne cutoff pick (hnorm ▸ h0) hc1 (le_of_lt hc2)
      rw [hg2]
      simp
  · intro verts ops g norm cutoff pick hnd hg hnorm h0 hc1 hc2
    subst hg
    have hw := DWF_addEdges verts hnd ops
    have hne := goodNeD_addEdges _ (goodNeD_ofVerts verts) ops
    refine ⟨dweights_sum _ hw hne norm hnorm (ne_of_gt h0), ?_, ?_⟩
    · intro v hwc
      obtain ⟨v2, hwc2, hv2, hpos2⟩ := dchoice_core _ hw hne norm cutoff hnorm h0 hc1
        (le_of_lt hc2)
      rw [hwc] at hwc2
      injection hwc2 with hvv
      subst hvv
      exact ⟨hpos2, dtargets_ne_nil _ hw hv2 norm h0 hpos2⟩
    · obtain ⟨g2, hg2⟩ := dare_some _ hw hne cutoff pick (hnorm ▸ h0) hc1 (le_of_lt hc2)
      rw [hg2]
      simp

/-- C8 amended witness at the empty two-vertex graph with draw one half. -/
theorem claim8_witness :
    ((graph.choiceList gK2e 2).map Prod.snd).sum = 1 ∧
    (∀ v, graph.weighted_choice (graph.choiceList gK2e 2) (1/2) = some v →
      0 < ((gK2e.nv : ℚ) - (gK2e.degs v : ℚ) - 1) / 2 ∧ graph.targetsOf gK2e v ≠ []) ∧
    graph.add_rand_edge gK2e (1/2) 0 ≠ none :=
  claim8_amended.1 [0, 1] [] gK2e 2 (1/2) 0 (by decide) rfl
    (by
      show (2 : ℚ) = (gK2e.nv : ℚ) * ((gK2e.nv : ℚ) - 1) - 2 * gK2e.ne
      have h1 : gK2e.ne = 0 := ofVertsU_ne_nil_seed [0, 1]
      have h2 : gK2e.nv = 2 := rfl
      rw [h1, h2]
      norm_num)
    (by norm_num) (by norm_num) (by norm_num)

/-- C8 counterexample: on the reachable graph with vertices 0, 1, 2 and edges
0-1, 0-2 (not complete: norm = 2 > 0), the saturated vertex 0 has weight
exactly 0, yet at the uniform draw 0.0 — a legal value of `random.random()`,
which ranges over [0,1) — the sampler selects it (the inclusive cumulative
test `threshold + weight >= cutoff` fires at 0 + 0 >= 0), its target set is
empty, and `add_rand_edge` raises `IndexError`; moreover on a seeded graph
the weights need not sum to 1 at all.  This refutes both the for-every-draw
zero-weight-never-selected claim and the step-4-cannot-fail claim. -/
theorem claim8_counterexample :
    (gZW.nv : ℚ) * ((gZW.nv : ℚ) - 1) - 2 * gZW.ne = 2 ∧
    graph.weighted_choice (graph.choiceList gZW 2) 0 = some 0 ∧
    ((gZW.nv : ℚ) - (gZW.degs 0 : ℚ) - 1) / 2 = 0 ∧
    graph.targetsOf gZW 0 = [] ∧
    graph.add_rand_edge gZW 0 0 = none ∧
    ((graph.choiceList gSeed3
      ((gSeed3.nv : ℚ) * ((gSeed3.nv : ℚ) - 1) - 2 * gSeed3.ne)).map Prod.snd).sum ≠ 1 := by
  have hnv : gZW.nv = 3 := by decide
  have hdeg0 : gZW.degs 0 = 2 := by decide
  have hdeg1 : gZW.degs 1 = 1 := by decide
  have hdeg2 : gZW.degs 2 = 1 := by decide
  have hverts : gZW.verts = [0, 1, 2] := by decide
  have htargets : graph.targetsOf gZW 0 = [] := by decide
  have hN : (gZW.nv : ℚ) * ((gZW.nv : ℚ) - 1) - 2 * gZW.ne = 2 := by
    rw [hnv, gZW_ne]
    norm_num
  have hwc : graph.weighted_choice (graph.choiceList gZW 2) 0 = some 0 := by
    simp only [graph.choiceList, hverts, List.map_cons, List.map_nil, hnv, hdeg0]
    rw [graph.weighted_choice, graph.wcLoop, if_pos (by norm_num)]
  refine ⟨hN, hwc, ?_, htargets, ?_, ?_⟩
  · rw [hnv, hdeg0]
    norm_num
  · unfold graph.add_rand_edge
    rw [if_pos (by rw [hN]; norm_num)]
    rw [hN, hwc]
    dsimp only
    rw [htargets]
    rfl
  · have hSnv : gSeed3.nv = 3 := rfl
    have hSne : gSeed3.ne = 1 := by
      show ((([0, 1, 2] : List ℕ).dedup.map
        (fun v => (graph.seedGet [(0, [1]), (1, [0])] v).length)).sum : ℚ) / 2 = 1
      have h2 : (([0, 1, 2] : List ℕ).dedup.map
          (fun v => (graph.seedGet [(0, [1]), (1, [0])] v).length)).sum = 2 := by decide
      rw [h2]
      norm_num
    have hSverts : gSeed3.verts = [0, 1, 2] := by decide
    have hSdeg : ∀ x, gSeed3.degs x = 0 := fun x => rfl
    have hSN : (gSeed3.nv : ℚ) * ((gSeed3.nv : ℚ) - 1) - 2 * gSeed3.ne = 4 := by
      rw [hSnv, hSne]
      norm_num
    rw [hSN]
    simp only [graph.choiceList, hSverts, List.map_cons, List.map_nil, hSnv, hSdeg]
    norm_num

/-- C6 counterexample: the call on the complete two-vertex graph and a
successful insertion on the empty two-vertex graph return the SAME Python
value (`None`, the `Unit` component of the model): the completeness failure
is only signalled by a printed message (the boolean flag), not by any result
the caller receives, refuting the claim that the caller can distinguish the
`GraphComplete` failure from a successful insertion. -/
theorem claim6_counterexample :
    (graph.add_rand_edge gK2c 0 0).map (fun r => r.2.2) =
      (graph.add_rand_edge gK2e (1/2) 0).map (fun r => r.2.2) ∧
    (graph.add_rand_edge gK2c 0 0).map (fun r => r.2.1) = some true ∧
    (graph.add_rand_edge gK2e (1/2) 0).map (fun r => r.2.1) = some false := by
  have hnvc : gK2c.nv = 2 := by decide
  have hcomplete : graph.add_rand_edge gK2c 0 0 = some (gK2c, true, ()) := by
    unfold graph.add_rand_edge
    rw [if_neg]
    push_neg
    rw [hnvc, gK2c_ne]
    norm_num
  have hK2e_ne : gK2e.ne = 0 := ofVertsU_ne_nil_seed [0, 1]
  have hK2e_nv : gK2e.nv = 2 := rfl
  obtain ⟨g2, hsuccess⟩ := uare_some gK2e (UWF_ofVerts [0, 1] (by decide))
    (goodNe_ofVerts [0, 1]) (1/2) 0
    (by rw [hK2e_nv, hK2e_ne]; norm_num) (by norm_num) (by norm_num)
  rw [hcomplete, hsuccess]
  exact ⟨rfl, rfl, rfl⟩

/-- C6 amended witness: the complete two-vertex graph hits the printed
GraphComplete path and is left unchanged. -/
theorem claim6_witness :
    graph.add_rand_edge gK2c 0 0 = some (gK2c, true, ()) :=
  (claim6_amended.1 gK2c 0 0).1 (by
    show gK2c.ne = (gK2c.nv : ℚ) * ((gK2c.nv : ℚ) - 1) / 2
    have hnvc : gK2c.nv = 2 := by decide
    rw [hnvc, gK2c_ne]
    norm_num)

/-! ## dfs (graph.py 136-164; digraph.py 126-154 is byte-identical, and
graphs.py 132-158 differs only in passing the shared dicts as parameters).
The traversal is embedded over an arbitrary key list (construction order)
and an arbitrary neighbour-list function (set iteration order), covering
both the graph and the digraph instantiation. -/

namespace graph

/-- The mutable state shared by `dfs` and its inner `explore`: the `visited`
dict, the `pre_post` dict and the clock `counter`. -/
structure DfsState where
  visited : ℕ → Bool
  pre_post : ℕ → List ℕ
  counter : ℕ

mutual
/-- Embedding of `explore(v, counter)`: record `pre`, recurse into unvisited
neighbours in iteration order, record `post`.  The fuel only bounds nesting
depth; `dfs` supplies `length verts` fuel, which is never exhausted because
every nested call marks a previously unvisited vertex first. -/
def explore (adj : ℕ → List ℕ) : ℕ → ℕ → DfsState → DfsState
  | 0, _, s => s
  | fuel + 1, v, s =>
    let s1 : DfsState :=
      { visited := Function.update s.visited v true
        pre_post := Function.update s.pre_post v (s.pre_post v ++ [s.counter])
        counter := s.counter + 1 }
    let s2 := exploreNbrs adj fuel (adj v) s1
    { visited := s2.visited
      pre_post := Function.update s2.pre_post v (s2.pre_post v ++ [s2.counter])
      counter := s2.counter + 1 }
termination_by fuel v s => (fuel, 0)

/-- The `for u in G[v]` loop inside `explore`. -/
def exploreNbrs (adj : ℕ → List ℕ) (fuel : ℕ) : List ℕ → DfsState → DfsState
  | [], s => s
  | u :: us, s =>
      exploreNbrs adj fuel us (if s.visited u then s else explore adj fuel u s)
termination_by l s => (fuel, l.length + 1)
end

/-- The outer `for v in G` loop of `dfs`. -/
def dfsLoop (adj : ℕ → List ℕ) (fuel : ℕ) : List ℕ → DfsState → DfsState
  | [], s => s
  | v :: vs, s => dfsLoop adj fuel vs (if s.visited v then s else explore adj fuel v s)

/-- The initial dfs state: nothing visited, all timestamp lists empty,
counter 0. -/
def dfsInit : DfsState := ⟨fun _ => false, fun _ => [], 0⟩

/-- Embedding of `dfs(G)`: Python returns the `pre_post` dict; the model
returns the whole final state so the internal counter is observable. -/
def dfs (verts : List ℕ) (adj : ℕ → List ℕ) : DfsState :=
  dfsLoop adj verts.length verts dfsInit

/-- Number of not-yet-visited vertices, the measure showing the fuel never
runs out. -/
def ucard (verts : List ℕ) (vis : ℕ → Bool) : ℕ :=
  (verts.toFinset.filter (fun x => vis x = false)).card

end graph

theorem bfalse {b : Bool} (h : ¬ b = true) : b = false := by
  cases b
  · rfl
  · exact absurd rfl h

theorem pair_eq {l : List ℕ} {a b c d : ℕ} (h : l ++ [a, b] = l ++ [c, d]) :
    a = c ∧ b = d := by
  have h2 := List.append_cancel_left h
  injection h2 with h3 h4
  injection h4 with h5 _
  exact ⟨h3, h5⟩

/-- Relational summary of one or more dfs exploration steps from state `s` to
state `s2`: visitation is monotone, newly visited vertices lie in the key
set and receive exactly one `[pre, post]` pair drawn from the counter range
crossed by the step, the crossed range is exactly covered by the new pairs,
and distinct new pairs are disjoint or strictly nested. -/
structure DfsSpec (verts : List ℕ) (s s2 : graph.DfsState) : Prop where
  mono : ∀ x, s.visited x = true → s2.visited x = true
  counter_le : s.counter ≤ s2.counter
  new_mem : ∀ x, s2.visited x = true → s.visited x = false → x ∈ verts
  old_pp : ∀ x, s2.visited x = s.visited x → s2.pre_post x = s.pre_post x
  new_pp : ∀ x, s2.visited x = true → s.visited x = false →
    ∃ a b, s2.pre_post x = s.pre_post x ++ [a, b] ∧
      s.counter ≤ a ∧ a < b ∧ b < s2.counter
  cover : ∀ t, s.counter ≤ t → t < s2.counter →
    ∃ x a b, s.visited x = false ∧ s2.visited x = true ∧
      s2.pre_post x = s.pre_post x ++ [a, b] ∧ (t = a ∨ t = b)
  nest : ∀ x y ax bx ay b2, s.visited x = false → s2.visited x = true →
    s.visited y = false → s2.visited y = true → x ≠ y →
    s2.pre_post x = s.pre_post x ++ [ax, bx] →
    s2.pre_post y = s.pre_post y ++ [ay, b2] →
    bx < ay ∨ b2 < ax ∨ (ax < ay ∧ b2 < bx) ∨ (ay < ax ∧ bx < b2)
  news : ∃ ns : List ℕ, ns.Nodup ∧
    (∀ x, x ∈ ns ↔ (s.visited x = false ∧ s2.visited x = true)) ∧
    s2.counter = s.counter + 2 * ns.length

theorem dfsSpec_refl (verts : List ℕ) (s : graph.DfsState) : DfsSpec verts s s := by
  refine ⟨fun x h => h, le_refl _, ?_, fun _ _ => Eq.refl _, ?_, ?_, ?_, ?_⟩
  · intro x h1 h2
    rw [h2] at h1
    cases h1
  · intro x h1 h2
    rw [h2] at h1
    cases h1
  · intro t h1 h2
    omega
  · intro x y ax bx ay b2 h1 h2 _ _ _ _ _
    rw [h1] at h2
    cases h2
  · refine ⟨[], List.nodup_nil, ?_, by simp⟩
    intro x
    simp only [List.not_mem_nil, false_iff]
    intro hcon
    rw [hcon.1] at hcon
    cases hcon.2

theorem DfsSpec.trans {verts : List ℕ} {s t u : graph.DfsState}
    (h1 : DfsSpec verts s t) (h2 : DfsSpec verts t u) : DfsSpec verts s u := by
  refine ⟨?_, le_trans h1.counter_le h2.counter_le, ?_, ?_, ?_, ?_, ?_, ?_⟩
  · exact fun x hx => h2.mono x (h1.mono x hx)
  · intro x hu hs
    by_cases ht : t.visited x = true
    · exact h1.new_mem x ht hs
    · exact h2.new_mem x hu (bfalse ht)
  · intro x hx
    by_cases hs : s.visited x = true
    · have ht := h1.mono x hs
      have hu := h2.mono x ht
      rw [h2.old_pp x (hu.trans ht.symm), h1.old_pp x (ht.trans hs.symm)]
    · have hsf : s.visited x = false := bfalse hs
      have huf : u.visited x = false := by rw [hx, hsf]
      have htf : t.visited x = false := by
        by_contra hcon
        have := h2.mono x (by
          cases hb : t.visited x
          · exact absurd hb hcon
          · rfl)
        rw [huf] at this
        cases this
      rw [h2.old_pp x (huf.trans htf.symm), h1.old_pp x (htf.trans hsf.symm)]
  · intro x hu hs
    by_cases ht : t.visited x = true
    · obtain ⟨a, b, hpp, ha, hab, hb⟩ := h1.new_pp x ht hs
      refine ⟨a, b, ?_, ha, hab, lt_of_lt_of_le hb h2.counter_le⟩
      rw [h2.old_pp x (hu.trans ht.symm), hpp]
    · obtain ⟨a, b, hpp, ha, hab, hb⟩ := h2.new_pp x hu (bfalse ht)
      refine ⟨a, b, ?_, le_trans h1.counter_le ha, hab, hb⟩
      rw [hpp, h1.old_pp x ((bfalse ht).trans hs.symm)]
  · intro t2 hlow hhigh
    by_cases hmid : t2 < t.counter
    · obtain ⟨x, a, b, hxs, hxt, hpp, hab⟩ := h1.cover t2 hlow hmid
      refine ⟨x, a, b, hxs, h2.mono x hxt, ?_, hab⟩
      rw [h2.old_pp x ((h2.mono x hxt).trans hxt.symm), hpp]
    · obtain ⟨x, a, b, hxt, hxu, hpp, hab⟩ := h2.cover t2 (le_of_not_lt hmid) hhigh
      have hxs : s.visited x = false := by
        by_contra hcon
        have := h1.mono x (by
          cases hb : s.visited x
          · exact absurd hb hcon
          · rfl)
        rw [hxt] at this
        cases this
      refine ⟨x, a, b, hxs, hxu, ?_, hab⟩
      rw [hpp, h1.old_pp x (hxt.trans hxs.symm)]
  · intro x y ax bx ay b2 hxs hxu hys hyu hxy hppx hppy
    by_cases hxt : t.visited x = true <;> by_cases hyt : t.visited y = true
    · -- both new during the first step
      obtain ⟨a, b, hpp, _, _, hb⟩ := h1.new_pp x hxt hxs
      obtain ⟨c, d, hpp2, _, _, hd⟩ := h1.new_pp y hyt hys
      have ex : t.pre_post x = s.pre_post x ++ [ax, bx] := by
        rw [← h2.old_pp x (hxu.trans hxt.symm), hppx]
      have ey : t.pre_post y = s.pre_post y ++ [ay, b2] := by
        rw [← h2.old_pp y (hyu.trans hyt.symm), hppy]
      exact h1.nest x y ax bx ay b2 hxs hxt hys hyt hxy ex ey
    · -- x new in step one, y new in step two
      obtain ⟨a, b, hpp, _, _, hb⟩ := h1.new_pp x hxt hxs
      obtain ⟨c, d, hpp2, hc, _, _⟩ := h2.new_pp y hyu (bfalse hyt)
      have ex : u.pre_post x = s.pre_post x ++ [a, b] := by
        rw [h2.old_pp x (hxu.trans hxt.symm), hpp]
      have hax : ax = a ∧ bx = b := pair_eq (hppx.symm.trans ex)
      have ey : u.pre_post y = s.pre_post y ++ [c, d] := by
        rw [hpp2, h1.old_pp y ((bfalse hyt).trans hys.symm)]
      have hay : ay = c ∧ b2 = d := pair_eq (hppy.symm.trans ey)
      left
      rw [hax.2, hay.1]
      exact lt_of_lt_of_le hb hc
    · -- y new in step one, x new in step two
      obtain ⟨a, b, hpp, _, _, hb⟩ := h1.new_pp y hyt hys
      obtain ⟨c, d, hpp2, hc, _, _⟩ := h2.new_pp x hxu (bfalse hxt)
      have ey : u.pre_post y = s.pre_post y ++ [a, b] := by
        rw [h2.old_pp y (hyu.trans hyt.symm), hpp]
      have hay : ay = a ∧ b2 = b := pair_eq (hppy.symm.trans ey)
      have ex : u.pre_post x = s.pre_post x ++ [c, d] := by
        rw [hpp2, h1.old_pp x ((bfalse hxt).trans hxs.symm)]
      have hax : ax = c ∧ bx = d := pair_eq (hppx.symm.trans ex)
      right
      left
      rw [hay.2, hax.1]
      exact lt_of_lt_of_le hb hc
    · -- both new during the second step
      have ex : u.pre_post x = t.pre_post x ++ [ax, bx] := by
        rw [hppx, h1.old_pp x ((bfalse hxt).trans hxs.symm)]
      have ey : u.pre_post y = t.pre_post y ++ [ay, b2] := by
        rw [hppy, h1.old_pp y ((bfalse hyt).trans hys.symm)]
      exact h2.nest x y ax bx ay b2 (bfalse hxt) hxu (bfalse hyt) hyu hxy ex ey
  · obtain ⟨ns1, hnd1, hmem1, hc1⟩ := h1.news
    obtain ⟨ns2, hnd2, hmem2, hc2⟩ := h2.news
    refine ⟨ns1 ++ ns2, ?_, ?_, ?_⟩
    · refine List.Nodup.append hnd1 hnd2 ?_
      intro x hx1 hx2
      have e1 := (hmem1 x).mp hx1
      have e2 := (hmem2 x).mp hx2
      rw [e1.2] at e2
      cases e2.1
    · intro x
      rw [List.mem_append, hmem1 x, hmem2 x]
      constructor
      · rintro (⟨hs, ht⟩ | ⟨ht, hu⟩)
        · exact ⟨hs, h2.mono x ht⟩
        · refine ⟨?_, hu⟩
          by_contra hcon
          have := h1.mono x (by
            cases hb : s.visited x
            · exact absurd hb hcon
            · rfl)
          rw [ht] at this
          cases this
      · rintro ⟨hs, hu⟩
        cases hb : t.visited x
        · exact Or.inr ⟨Eq.refl _, hu⟩
        · exact Or.inl ⟨hs, Eq.refl _⟩
    · rw [hc2, hc1, List.length_append]
      ring

theorem ucard_mono (verts : List ℕ) {vis vis2 : ℕ → Bool}
    (h : ∀ x, vis x = true → vis2 x = true) :
    graph.ucard verts vis2 ≤ graph.ucard verts vis := by
  apply Finset.card_le_card
  intro x hx
  rw [Finset.mem_filter] at hx ⊢
  refine ⟨hx.1, ?_⟩
  by_contra hcon
  have := h x (by
    cases hb : vis x
    · exact absurd hb hcon
    · rfl)
  rw [hx.2] at this
  cases this

theorem ucard_update (verts : List ℕ) (vis : ℕ → Bool) (v : ℕ) (hv : v ∈ verts)
    (hnv : vis v = false) :
    graph.ucard verts (Function.update vis v true) + 1 = graph.ucard verts vis := by
  unfold graph.ucard
  have hset : verts.toFinset.filter (fun x => (Function.update vis v true) x = false) =
      (verts.toFinset.filter (fun x => vis x = false)).erase v := by
    ext x
    rw [Finset.mem_erase, Finset.mem_filter, Finset.mem_filter]
    constructor
    · intro ⟨hx1, hx2⟩
      by_cases hxv : x = v
      · rw [hxv, Function.update_same] at hx2
        cases hx2
      · rw [Function.update_noteq hxv] at hx2
        exact ⟨hxv, hx1, hx2⟩
    · intro ⟨hxv, hx1, hx2⟩
      rw [Function.update_noteq hxv]
      exact ⟨hx1, hx2⟩
  rw [hset, Finset.card_erase_of_mem (Finset.mem_filter.mpr
    ⟨List.mem_toFinset.mpr hv, hnv⟩)]
  have hpos : 0 < (verts.toFinset.filter (fun x => vis x = false)).card :=
    Finset.card_pos.mpr ⟨v, Finset.mem_filter.mpr ⟨List.mem_toFinset.mpr hv, hnv⟩⟩
  omega

theorem ucard_pos (verts : List ℕ) (vis : ℕ → Bool) (v : ℕ) (hv : v ∈ verts)
    (hnv : vis v = false) : 0 < graph.ucard verts vis :=
  Finset.card_pos.mpr ⟨v, Finset.mem_filter.mpr ⟨List.mem_toFinset.mpr hv, hnv⟩⟩

theorem exploreNbrs_sp (adj : ℕ → List ℕ) (verts : List ℕ) (fuel : ℕ)
    (IH : ∀ v s, v ∈ verts → s.visited v = false → graph.ucard verts s.visited ≤ fuel →
      DfsSpec verts s (graph.explore adj fuel v s) ∧
      (graph.explore adj fuel v s).visited v = true) :
    ∀ (l : List ℕ) (s : graph.DfsState), (∀ u ∈ l, u ∈ verts) →
      graph.ucard verts s.visited ≤ fuel →
      DfsSpec verts s (graph.exploreNbrs adj fuel l s) := by
  intro l
  induction l with
  | nil =>
    intro s _ _
    rw [graph.exploreNbrs]
    exact dfsSpec_refl verts s
  | cons u us ihl =>
    intro s hsub hfuel
    rw [graph.exploreNbrs]
    by_cases hvis : s.visited u = true
    · rw [if_pos hvis]
      exact ihl s (fun x hx => hsub x (List.mem_cons_of_mem _ hx)) hfuel
    · rw [if_neg hvis]
      obtain ⟨spec1, _⟩ := IH u s (hsub u (List.mem_cons_self _ _)) (bfalse hvis) hfuel
      have hcard : graph.ucard verts (graph.explore adj fuel u s).visited ≤ fuel :=
        le_trans (ucard_mono verts spec1.mono) hfuel
      exact spec1.trans (ihl _ (fun x hx => hsub x (List.mem_cons_of_mem _ hx)) hcard)

theorem explore_sp (adj : ℕ → List ℕ) (verts : List ℕ)
    (hcl : ∀ x ∈ verts, ∀ u ∈ adj x, u ∈ verts) :
    ∀ (fuel : ℕ) (v : ℕ) (s : graph.DfsState), v ∈ verts → s.visited v = false →
      graph.ucard verts s.visited ≤ fuel →
      DfsSpec verts s (graph.explore adj fuel v s) ∧
      (graph.explore adj fuel v s).visited v = true := by
  intro fuel
  induction fuel with
  | zero =>
    intro v s hv hnv hfuel
    have := ucard_pos verts s.visited v hv hnv
    omega
  | succ fuel ih =>
    intro v s hv hnv hfuel
    set S1 : graph.DfsState :=
      { visited := Function.update s.visited v true
        pre_post := Function.update s.pre_post v (s.pre_post v ++ [s.counter])
        counter := s.counter + 1 } with hS1def
    set S2 : graph.DfsState := graph.exploreNbrs adj fuel (adj v) S1 with hS2def
    have hexp : graph.explore adj (fuel + 1) v s =
        { visited := S2.visited
          pre_post := Function.update S2.pre_post v (S2.pre_post v ++ [S2.counter])
          counter := S2.counter + 1 } := by
      rw [graph.explore]
    have hvis1v : S1.visited v = true := Function.update_same v true s.visited
    have hvis1x : ∀ x, x ≠ v → S1.visited x = s.visited x :=
      fun x hx => Function.update_noteq hx true s.visited
    have hpp1v : S1.pre_post v = s.pre_post v ++ [s.counter] :=
      Function.update_same v _ s.pre_post
    have hpp1x : ∀ x, x ≠ v → S1.pre_post x = s.pre_post x :=
      fun x hx => Function.update_noteq hx _ s.pre_post
    have hcnt1 : S1.counter = s.counter + 1 := Eq.refl _
    have hcard1 : graph.ucard verts S1.visited ≤ fuel := by
      have := ucard_update verts s.visited v hv hnv
      have hS1v : S1.visited = Function.update s.visited v true := Eq.refl _
      rw [hS1v]
      omega
    have spec12 : DfsSpec verts S1 S2 :=
      exploreNbrs_sp adj verts fuel ih (adj v) S1 (fun u hu => hcl v hv u hu) hcard1
    have hvis2v : S2.visited v = true := spec12.mono v hvis1v
    have hppS2v : S2.pre_post v = s.pre_post v ++ [s.counter] := by
      rw [spec12.old_pp v (hvis2v.trans hvis1v.symm), hpp1v]
    have hvis3 : (graph.explore adj (fuel + 1) v s).visited = S2.visited := by
      rw [hexp]
    have hpp3 : (graph.explore adj (fuel + 1) v s).pre_post =
        Function.update S2.pre_post v (S2.pre_post v ++ [S2.counter]) := by
      rw [hexp]
    have hc3 : (graph.explore adj (fuel + 1) v s).counter = S2.counter + 1 := by
      rw [hexp]
    have hppEv : (graph.explore adj (fuel + 1) v s).pre_post v =
        s.pre_post v ++ [s.counter, S2.counter] := by
      rw [hpp3, Function.update_same, hppS2v, List.append_assoc]
      rfl
    have hcle12 : S1.counter ≤ S2.counter := spec12.counter_le
    refine ⟨⟨?_, ?_, ?_, ?_, ?_, ?_, ?_, ?_⟩, ?_⟩
    · -- mono
      intro x hx
      rw [hvis3]
      apply spec12.mono
      by_cases hxv : x = v
      · rw [hxv]
        exact hvis1v
      · rw [hvis1x x hxv]
        exact hx
    · -- counter_le
      rw [hc3]
      omega
    · -- new_mem
      intro x hx hxs
      rw [hvis3] at hx
      by_cases hxv : x = v
      · rw [hxv]
        exact hv
      · refine spec12.new_mem x hx ?_
        rw [hvis1x x hxv]
        exact hxs
    · -- old_pp
      intro x hx
      rw [hvis3] at hx
      by_cases hxv : x = v
      · subst hxv
        rw [hvis2v, hnv] at hx
        cases hx
      · rw [hpp3, Function.update_noteq hxv]
        rw [spec12.old_pp x (by rw [hvis1x x hxv]; exact hx), hpp1x x hxv]
    · -- new_pp
      intro x hx hxs
      rw [hvis3] at hx
      by_cases hxv : x = v
      · subst hxv
        refine ⟨s.counter, S2.counter, hppEv, le_refl _, by omega, by rw [hc3]; omega⟩
      · obtain ⟨a, b, hpp, ha, hab, hb⟩ := spec12.new_pp x hx
          (by rw [hvis1x x hxv]; exact hxs)
        refine ⟨a, b, ?_, by omega, hab, by rw [hc3]; omega⟩
        rw [hpp3, Function.update_noteq hxv, hpp, hpp1x x hxv]
    · -- cover
      intro t ht1 ht2
      rw [hc3] at ht2
      by_cases htc : t = s.counter
      · exact ⟨v, s.counter, S2.counter, hnv, by rw [hvis3]; exact hvis2v, hppEv,
          Or.inl htc⟩
      · by_cases htc2 : t = S2.counter
        · exact ⟨v, s.counter, S2.counter, hnv, by rw [hvis3]; exact hvis2v, hppEv,
            Or.inr htc2⟩
        · obtain ⟨x, a, b, hx1, hx2, hpp, hab⟩ := spec12.cover t (by omega) (by omega)
          have hxv : x ≠ v := by
            intro he
            rw [he, hvis1v] at hx1
            cases hx1
          refine ⟨x, a, b, ?_, ?_, ?_, hab⟩
          · rw [← hvis1x x hxv]
            exact hx1
          · rw [hvis3]
            exact hx2
          · rw [hpp3, Function.update_noteq hxv, hpp, hpp1x x hxv]
    · -- nest
      intro x y ax bx ay b2 hxs hxE hys hyE hxy hppx hppy
      rw [hvis3] at hxE hyE
      by_cases hxv : x = v
      · subst hxv
        have hyv : y ≠ x := fun h => hxy h.symm
        have hpex := hppx.symm.trans hppEv
        obtain ⟨hax, hbx⟩ := pair_eq hpex
        obtain ⟨c, d, hpp, hc, hcd, hd⟩ := spec12.new_pp y hyE
          (by rw [hvis1x y hyv]; exact hys)
        have hpey : (graph.explore adj (fuel + 1) x s).pre_post y =
            s.pre_post y ++ [c, d] := by
          rw [hpp3, Function.update_noteq hyv, hpp, hpp1x y hyv]
        obtain ⟨hay, hb2⟩ := pair_eq (hppy.symm.trans hpey)
        right
        right
        left
        constructor
        · rw [hax, hay]
          omega
        · rw [hbx, hb2]
          omega
      · by_cases hyv : y = v
        · subst hyv
          have hpey := hppy.symm.trans hppEv
          obtain ⟨hay, hb2⟩ := pair_eq hpey
          obtain ⟨c, d, hpp, hc, hcd, hd⟩ := spec12.new_pp x hxE
            (by rw [hvis1x x hxv]; exact hxs)
          have hpex : (graph.explore adj (fuel + 1) y s).pre_post x =
              s.pre_post x ++ [c, d] := by
            rw [hpp3, Function.update_noteq hxv, hpp, hpp1x x hxv]
          obtain ⟨hax, hbx⟩ := pair_eq (hppx.symm.trans hpex)
          right
          right
          right
          constructor
          · rw [hax, hay]
            omega
          · rw [hbx, hb2]
            omega
        · have ex : S2.pre_post x = S1.pre_post x ++ [ax, bx] := by
            rw [hpp1x x hxv, ← hppx, hpp3, Function.update_noteq hxv]
          have ey : S2.pre_post y = S1.pre_post y ++ [ay, b2] := by
            rw [hpp1x y hyv, ← hppy, hpp3, Function.update_noteq hyv]
          exact spec12.nest x y ax bx ay b2
            (by rw [hvis1x x hxv]; exact hxs) hxE
            (by rw [hvis1x y hyv]; exact hys) hyE hxy ex ey
    · -- news
      obtain ⟨ns, hnd, hmem, hcn⟩ := spec12.news
      have hvns : v ∉ ns := by
        intro hvn
        have := ((hmem v).mp hvn).1
        rw [hvis1v] at this
        cases this
      refine ⟨v :: ns, List.nodup_cons.mpr ⟨hvns, hnd⟩, ?_, ?_⟩
      · intro x
        rw [List.mem_cons, hmem x]
        constructor
        · rintro (rfl | ⟨h1, h2⟩)
          · exact ⟨hnv, by rw [hvis3]; exact hvis2v⟩
          · have hxv : x ≠ v := by
              intro he
              rw [he, hvis1v] at h1
              cases h1
            refine ⟨?_, by rw [hvis3]; exact h2⟩
            rw [← hvis1x x hxv]
            exact h1
        · rintro ⟨h1, h2⟩
          by_cases hxv : x = v
          · exact Or.inl hxv
          · refine Or.inr ⟨?_, ?_⟩
            · rw [hvis1x x hxv]
              exact h1
            · rw [hvis3] at h2
              exact h2
      · rw [hc3, hcn, List.length_cons]
        omega
    · -- explore marks v
      rw [hvis3]
      exact hvis2v

theorem dfsLoop_sp (adj : ℕ → List ℕ) (verts : List ℕ)
    (hcl : ∀ x ∈ verts, ∀ u ∈ adj x, u ∈ verts) (fuel : ℕ) :
    ∀ (l : List ℕ) (s : graph.DfsState), (∀ u ∈ l, u ∈ verts) →
      graph.ucard verts s.visited ≤ fuel →
      DfsSpec verts s (graph.dfsLoop adj fuel l s) ∧
      (∀ u ∈ l, (graph.dfsLoop adj fuel l s).visited u = true) := by
  intro l
  induction l with
  | nil =>
    intro s _ _
    rw [graph.dfsLoop]
    exact ⟨dfsSpec_refl verts s, fun u hu => absurd hu (List.not_mem_nil u)⟩
  | cons v vs ihl =>
    intro s hsub hfuel
    rw [graph.dfsLoop]
    by_cases hvis : s.visited v = true
    · rw [if_pos hvis]
      obtain ⟨spec2, hall⟩ := ihl s (fun x hx => hsub x (List.mem_cons_of_mem _ hx)) hfuel
      refine ⟨spec2, ?_⟩
      intro u hu
      rcases List.mem_cons.mp hu with rfl | hu2
      · exact spec2.mono u hvis
      · exact hall u hu2
    · obtain ⟨spec1, hmark⟩ := explore_sp adj verts hcl fuel v s
        (hsub v (List.mem_cons_self _ _)) (bfalse hvis) hfuel
      rw [if_neg hvis]
      have hcard : graph.ucard verts (graph.explore adj fuel v s).visited ≤ fuel :=
        le_trans (ucard_mono verts spec1.mono) hfuel
      obtain ⟨spec2, hall⟩ := ihl (graph.explore adj fuel v s)
        (fun x hx => hsub x (List.mem_cons_of_mem _ hx)) hcard
      refine ⟨spec1.trans spec2, ?_⟩
      intro u hu
      rcases List.mem_cons.mp hu with rfl | hu2
      · exact spec2.mono u hmark
      · exact hall u hu2

theorem dfs_sp (verts : List ℕ) (adj : ℕ → List ℕ)
    (hcl : ∀ x ∈ verts, ∀ u ∈ adj x, u ∈ verts) :
    DfsSpec verts graph.dfsInit (graph.dfs verts adj) ∧
    (∀ u ∈ verts, (graph.dfs verts adj).visited u = true) := by
  have hfuel : graph.ucard verts graph.dfsInit.visited ≤ verts.length := by
    unfold graph.ucard graph.dfsInit
    calc (verts.toFinset.filter (fun x => (fun _ => false) x = false)).card
        ≤ verts.toFinset.card := Finset.card_filter_le _ _
      _ ≤ verts.length := verts.toFinset_card_le
  exact dfsLoop_sp adj verts hcl verts.length verts graph.dfsInit (fun u hu => hu) hfuel

/-- C3: for every graph or digraph whose adjacency stays inside the vertex
set (a well-formedness every reachable graph satisfies; without it the
Python dfs raises `KeyError`), dfs assigns to every vertex exactly one pair
`[pre, post]` with `pre < post`, drawn from the single counter that starts
at 0, and the intervals of two distinct vertices are either disjoint or
strictly nested, never partially overlapping. -/
theorem claim3_dfs_intervals (verts : List ℕ) (adj : ℕ → List ℕ)
    (hcl : ∀ x ∈ verts, ∀ u ∈ adj x, u ∈ verts) :
    (∀ v ∈ verts, ∃ a b, (graph.dfs verts adj).pre_post v = [a, b] ∧ a < b) ∧
    (∀ u v au bu av bv, u ∈ verts → v ∈ verts → u ≠ v →
      (graph.dfs verts adj).pre_post u = [au, bu] →
      (graph.dfs verts adj).pre_post v = [av, bv] →
      bu < av ∨ bv < au ∨ (au < av ∧ bv < bu) ∨ (av < au ∧ bu < bv)) := by
  obtain ⟨spec, hall⟩ := dfs_sp verts adj hcl
  constructor
  · intro v hv
    obtain ⟨a, b, hpp, _, hab, _⟩ := spec.new_pp v (hall v hv) (Eq.refl _)
    exact ⟨a, b, by rw [hpp]; rfl, hab⟩
  · intro u v au bu av bv hu hv huv hppu hppv
    exact spec.nest u v au bu av bv (Eq.refl _) (hall u hu) (Eq.refl _) (hall v hv) huv
      (by rw [hppu]; rfl) (by rw [hppv]; rfl)

/-- C3 witness: the path graph 0-1 with an isolated vertex 2 (adjacency in
both directions, covering the undirected instantiation). -/
theorem claim3_witness :
    (∀ v ∈ [0, 1, 2], ∃ a b,
      (graph.dfs [0, 1, 2]
        (fun v => if v = 0 then [1] else if v = 1 then [0] else [])).pre_post v = [a, b] ∧
      a < b) ∧
    (∀ u v au bu av bv, u ∈ [0, 1, 2] → v ∈ [0, 1, 2] → u ≠ v →
      (graph.dfs [0, 1, 2]
        (fun v => if v = 0 then [1] else if v = 1 then [0] else [])).pre_post u = [au, bu] →
      (graph.dfs [0, 1, 2]
        (fun v => if v = 0 then [1] else if v = 1 then [0] else [])).pre_post v = [av, bv] →
      bu < av ∨ bv < au ∨ (au < av ∧ bv < bu) ∨ (av < au ∧ bu < bv)) :=
  claim3_dfs_intervals [0, 1, 2]
    (fun v => if v = 0 then [1] else if v = 1 then [0] else []) (by decide)

/-- C10: for every graph or digraph with adjacency inside the (duplicate-free)
vertex set, the dfs counter ends at exactly twice the vertex count, the
timestamps over all vertices are exactly the values 0, 1, ..., 2 nv - 1, and
every value is assigned to exactly one vertex (and within a vertex the two
timestamps are distinct, by claim C3's pre < post). -/
theorem claim10_dfs_timestamps (verts : List ℕ) (adj : ℕ → List ℕ)
    (hcl : ∀ x ∈ verts, ∀ u ∈ adj x, u ∈ verts) (hnd : verts.Nodup) :
    (graph.dfs verts adj).counter = 2 * verts.length ∧
    (∀ t, (∃ v ∈ verts, t ∈ (graph.dfs verts adj).pre_post v) ↔ t < 2 * verts.length) ∧
    (∀ t u v, u ∈ verts → v ∈ verts → t ∈ (graph.dfs verts adj).pre_post u →
      t ∈ (graph.dfs verts adj).pre_post v → u = v) := by
  obtain ⟨spec, hall⟩ := dfs_sp verts adj hcl
  have h0 : graph.dfsInit.counter = 0 := Eq.refl _
  obtain ⟨ns, hnsnd, hnsmem, hnscnt⟩ := spec.news
  have hmem2 : ∀ x, x ∈ ns ↔ x ∈ verts := by
    intro x
    rw [hnsmem x]
    constructor
    · rintro ⟨_, h2⟩
      exact spec.new_mem x h2 (Eq.refl _)
    · intro hx
      exact ⟨Eq.refl _, hall x hx⟩
  have hlen : ns.length = verts.length := by
    have hts : ns.toFinset = verts.toFinset := by
      ext x
      rw [List.mem_toFinset, List.mem_toFinset]
      exact hmem2 x
    rw [← List.toFinset_card_of_nodup hnsnd, ← List.toFinset_card_of_nodup hnd, hts]
  have hcount : (graph.dfs verts adj).counter = 2 * verts.length := by
    rw [hnscnt, hlen]
    omega
  refine ⟨hcount, ?_, ?_⟩
  · intro t
    constructor
    · rintro ⟨v, hv, ht⟩
      obtain ⟨a, b, hpp, _, hab, hb⟩ := spec.new_pp v (hall v hv) (Eq.refl _)
      have hpp2 : (graph.dfs verts adj).pre_post v = [a, b] := by
        rw [hpp]
        rfl
      rw [hpp2] at ht
      rw [hcount] at hb
      rcases (by simpa using ht : t = a ∨ t = b) with rfl | rfl
      · omega
      · omega
    · intro ht
      obtain ⟨x, a, b, _, hx2, hpp, hab⟩ := spec.cover t (by omega)
        (by rw [hcount]; omega)
      have hxv : x ∈ verts := spec.new_mem x hx2 (Eq.refl _)
      refine ⟨x, hxv, ?_⟩
      have hpp2 : (graph.dfs verts adj).pre_post x = [a, b] := by
        rw [hpp]
        rfl
      rw [hpp2]
      rcases hab with rfl | rfl <;> simp
  · intro t u v hu hv htu htv
    by_contra hne
    obtain ⟨au, bu, hppu, _, habu, _⟩ := spec.new_pp u (hall u hu) (Eq.refl _)
    obtain ⟨av, bv, hppv, _, habv, _⟩ := spec.new_pp v (hall v hv) (Eq.refl _)
    have h4 := spec.nest u v au bu av bv (Eq.refl _) (hall u hu) (Eq.refl _)
      (hall v hv) hne hppu hppv
    have hppu2 : (graph.dfs verts adj).pre_post u = [au, bu] := by
      rw [hppu]
      rfl
    have hppv2 : (graph.dfs verts adj).pre_post v = [av, bv] := by
      rw [hppv]
      rfl
    rw [hppu2] at htu
    rw [hppv2] at htv
    rcases (by simpa using htu : t = au ∨ t = bu) with rfl | rfl <;>
      rcases (by simpa using htv : _ = av ∨ _ = bv) with h5 | h5 <;>
      omega

/-- C10 witness: the path graph 0-1 with an isolated vertex 2. -/
theorem claim10_witness :
    (graph.dfs [0, 1, 2]
      (fun v => if v = 0 then [1] else if v = 1 then [0] else [])).counter = 2 * 3 ∧
    (∀ t, (∃ v ∈ [0, 1, 2], t ∈ (graph.dfs [0, 1, 2]
      (fun v => if v = 0 then [1] else if v = 1 then [0] else [])).pre_post v) ↔
      t < 2 * 3) ∧
    (∀ t u v, u ∈ [0, 1, 2] → v ∈ [0, 1, 2] →
      t ∈ (graph.dfs [0, 1, 2]
        (fun v => if v = 0 then [1] else if v = 1 then [0] else [])).pre_post u →
      t ∈ (graph.dfs [0, 1, 2]
        (fun v => if v = 0 then [1] else if v = 1 then [0] else [])).pre_post v →
      u = v) := by
  have h := claim10_dfs_timestamps [0, 1, 2]
    (fun v => if v = 0 then [1] else if v = 1 then [0] else []) (by decide) (by decide)
  exact ⟨h.1, h.2.1, h.2.2⟩

/-! ## spanning_forest (graph.py 117-134; graphs.py 114-130 is the same
algorithm with the helper explore function at module level) and the
connectivity notions the claim about it uses. -/

namespace graph

/-- The mutable state of `spanning_forest`: the `visited` dict and the
forest under construction (`sp_forest`). -/
structure SfState where
  visited : ℕ → Bool
  sf : UGraph

mutual
/-- Embedding of the inner `explore(v)` of `spanning_forest`: mark `v`, then
for each unvisited neighbour `u` add the tree edge `(u, v)` to the forest
and recurse into `u`. -/
def sfExplore (g : UGraph) : ℕ → ℕ → SfState → SfState
  | 0, _, s => s
  | fuel + 1, v, s =>
      sfNbrs g fuel v (g.adj v) { visited := Function.update s.visited v true, sf := s.sf }
termination_by fuel v s => (fuel, 0)

/-- The `for u in G[v]` loop of the spanning-forest explore. -/
def sfNbrs (g : UGraph) (fuel : ℕ) (v : ℕ) : List ℕ → SfState → SfState
  | [], s => s
  | u :: us, s =>
      sfNbrs g fuel v us
        (if s.visited u then s
         else sfExplore g fuel u { visited := s.visited, sf := (add_edge s.sf u v).2 })
termination_by l s => (fuel, l.length + 1)
end

/-- The outer `for v in G` loop of `spanning_forest`. -/
def sfLoop (g : UGraph) (fuel : ℕ) : List ℕ → SfState → SfState
  | [], s => s
  | v :: vs, s => sfLoop g fuel vs (if s.visited v then s else sfExplore g fuel v s)

/-- Embedding of `spanning_forest(G)`: the fresh forest is `graph(G)`, the
constructor applied to the vertex iteration of `G` with no seed edges. -/
def spanning_forest (g : UGraph) : UGraph :=
  (sfLoop g g.verts.length g.verts ⟨fun _ => false, ofVerts g.verts []⟩).sf

/-- One adjacency step in a graph (the source endpoint must be a key, as in
the Python `G[v]` lookup). -/
def adjStep (g : UGraph) (u v : ℕ) : Prop := u ∈ g.verts ∧ v ∈ g.adj u

/-- Reachability: the reflexive-transitive closure of adjacency. -/
def Reach (g : UGraph) : ℕ → ℕ → Prop := Relation.ReflTransGen (adjStep g)

/-- The connected component of a vertex, as the set of vertices it reaches. -/
noncomputable def component (g : UGraph) (v : ℕ) : Finset ℕ :=
  @Finset.filter _ (fun u => Reach g v u) (fun u => Classical.propDecidable _)
    g.verts.toFinset

/-- The set of connected components of a graph. -/
noncomputable def components (g : UGraph) : Finset (Finset ℕ) :=
  g.verts.toFinset.image (fun v => component g v)

/-- An undirected edge of a graph state (either stored direction). -/
def hasEdge (h : UGraph) (u v : ℕ) : Prop := v ∈ h.adj u ∨ u ∈ h.adj v

/-- A cycle: at least three pairwise distinct vertices, cyclically adjacent. -/
def IsCycle (h : UGraph) (l : List ℕ) : Prop :=
  3 ≤ l.length ∧ l.Nodup ∧
  ∀ i, i < l.length → hasEdge h (l.getD i 0) (l.getD ((i + 1) % l.length) 0)

/-- A visited set closed under adjacency (a union of whole components). -/
def gClosed (g : UGraph) (vis : ℕ → Bool) : Prop :=
  ∀ x, vis x = true → ∀ u ∈ g.adj x, vis u = true

/-- Every forest edge joins two visited vertices. -/
def sfInv (s : SfState) : Prop :=
  ∀ x y, y ∈ s.sf.adj x → s.visited x = true ∧ s.visited y = true

/-- Weakening of `sfInv` allowing one pending vertex, used across the point
where `add_edge(u, v)` has run but `explore(u)` has not yet marked `u`. -/
def sfInvP (s : SfState) (w : ℕ) : Prop :=
  ∀ x y, y ∈ s.sf.adj x →
    (s.visited x = true ∨ x = w) ∧ (s.visited y = true ∨ y = w)

end graph

/-- Relational summary of a block of spanning-forest steps from `s` to `s2`:
`ev` is the chronological list of discovery events, pairing each newly
visited vertex with its tree parent (`some p`) or `none` for a root. -/
structure SfCore (g : graph.UGraph) (s s2 : graph.SfState)
    (ev : List (ℕ × Option ℕ)) : Prop where
  mono : ∀ x, s.visited x = true → s2.visited x = true
  vis_iff : ∀ x, s2.visited x = true ↔ (s.visited x = true ∨ x ∈ ev.map Prod.fst)
  fresh : ∀ p ∈ ev, s.visited p.1 = false
  fst_nodup : (ev.map Prod.fst).Nodup
  fst_mem : ∀ p ∈ ev, p.1 ∈ g.verts
  par_earlier : ∀ i c p, ev.get? i = some (c, some p) →
    (s.visited p = true ∨ p ∈ (ev.take i).map Prod.fst)
  g_edge : ∀ c p, (c, some p) ∈ ev → c ∈ g.adj p
  edges : ∀ x y, y ∈ s2.sf.adj x ↔
    (y ∈ s.sf.adj x ∨ (x, some y) ∈ ev ∨ (y, some x) ∈ ev)
  ne_eq : s2.sf.ne = s.sf.ne + (ev.filter (fun e => e.2.isSome)).length
  nbrs : ∀ p ∈ ev, ∀ u ∈ g.adj p.1, s2.visited u = true
  verts_eq : s2.sf.verts = s.sf.verts

theorem sfCore_refl (g : graph.UGraph) (s : graph.SfState) : SfCore g s s [] := by
  refine ⟨fun x h => h, ?_, ?_, List.nodup_nil, ?_, ?_, ?_, ?_, by simp, ?_, Eq.refl _⟩
  · intro x
    simp
  · intro p hp
    cases hp
  · intro p hp
    cases hp
  · intro i c p h
    simp at h
  · intro c p h
    cases h
  · intro x y
    simp
  · intro p hp
    cases hp

theorem sfCore_trans {g : graph.UGraph} {s t u : graph.SfState}
    {ev1 ev2 : List (ℕ × Option ℕ)}
    (h1 : SfCore g s t ev1) (h2 : SfCore g t u ev2) :
    SfCore g s u (ev1 ++ ev2) := by
  refine ⟨?_, ?_, ?_, ?_, ?_, ?_, ?_, ?_, ?_, ?_, ?_⟩
  · exact fun x hx => h2.mono x (h1.mono x hx)
  · intro x
    rw [h2.vis_iff x, h1.vis_iff x, List.map_append, List.mem_append]
    tauto
  · intro p hp
    rcases List.mem_append.mp hp with hp1 | hp2
    · exact h1.fresh p hp1
    · have ht := h2.fresh p hp2
      by_contra hcon
      have : s.visited p.1 = true := by
        cases hb : s.visited p.1
        · exact absurd hb hcon
        · rfl
      rw [h1.mono p.1 this] at ht
      cases ht
  · rw [List.map_append]
    refine List.Nodup.append h1.fst_nodup h2.fst_nodup ?_
    intro x hx1 hx2
    rw [List.mem_map] at hx1 hx2
    obtain ⟨p1, hp1, he1⟩ := hx1
    obtain ⟨p2, hp2, he2⟩ := hx2
    have hv1 : t.visited x = true := (h1.vis_iff x).mpr
      (Or.inr (List.mem_map.mpr ⟨p1, hp1, he1⟩))
    have hv2 := h2.fresh p2 hp2
    rw [he2, hv1] at hv2
    cases hv2
  · intro p hp
    rcases List.mem_append.mp hp with hp1 | hp2
    · exact h1.fst_mem p hp1
    · exact h2.fst_mem p hp2
  · intro i c p hget
    by_cases hi : i < ev1.length
    · rw [List.get?_append hi] at hget
      rcases h1.par_earlier i c p hget with hv | hm
      · exact Or.inl hv
      · right
        rw [List.take_append_eq_append_take, List.map_append, List.mem_append]
        exact Or.inl hm
    · rw [List.get?_append_right (by omega)] at hget
      rcases h2.par_earlier (i - ev1.length) c p hget with hv | hm
      · rcases (h1.vis_iff p).mp hv with hs | hm1
        · exact Or.inl hs
        · right
          rw [List.take_append_eq_append_take, List.map_append, List.mem_append]
          left
          rw [List.take_of_length_le (by omega : ev1.length ≤ i)]
          exact hm1
      · right
        rw [List.take_append_eq_append_take, List.map_append, List.mem_append]
        right
        exact hm
  · intro c p hp
    rcases List.mem_append.mp hp with hp1 | hp2
    · exact h1.g_edge c p hp1
    · exact h2.g_edge c p hp2
  · intro x y
    rw [h2.edges x y, h1.edges x y]
    constructor
    · rintro ((hs | hx | hy) | hx | hy)
      · exact Or.inl hs
      · exact Or.inr (Or.inl (List.mem_append.mpr (Or.inl hx)))
      · exact Or.inr (Or.inr (List.mem_append.mpr (Or.inl hy)))
      · exact Or.inr (Or.inl (List.mem_append.mpr (Or.inr hx)))
      · exact Or.inr (Or.inr (List.mem_append.mpr (Or.inr hy)))
    · rintro (hs | hx | hy)
      · exact Or.inl (Or.inl hs)
      · rcases List.mem_append.mp hx with h | h
        · exact Or.inl (Or.inr (Or.inl h))
        · exact Or.inr (Or.inl h)
      · rcases List.mem_append.mp hy with h | h
        · exact Or.inl (Or.inr (Or.inr h))
        · exact Or.inr (Or.inr h)
  · rw [h2.ne_eq, h1.ne_eq, List.filter_append, List.length_append]
    push_cast
    ring
  · intro p hp w hw
    rcases List.mem_append.mp hp with hp1 | hp2
    · exact h2.mono w (h1.nbrs p hp1 w hw)
    · exact h2.nbrs p hp2 w hw
  · rw [h2.verts_eq, h1.verts_eq]

theorem exists_max_key (f : ℕ → ℕ) : ∀ (l : List ℕ), l ≠ [] →
    ∃ u ∈ l, ∀ z ∈ l, f z ≤ f u := by
  intro l
  induction l with
  | nil => intro h; exact absurd rfl h
  | cons x xs ih =>
    intro _
    by_cases hxs : xs = []
    · subst hxs
      refine ⟨x, List.mem_cons_self _ _, ?_⟩
      intro z hz
      rcases List.mem_cons.mp hz with rfl | hz2
      · exact le_refl _
      · cases hz2
    · obtain ⟨u, hu, hmax⟩ := ih hxs
      by_cases hc : f x ≤ f u
      · refine ⟨u, List.mem_cons_of_mem _ hu, ?_⟩
        intro z hz
        rcases List.mem_cons.mp hz with rfl | hz2
        · exact hc
        · exact hmax z hz2
      · refine ⟨x, List.mem_cons_self _ _, ?_⟩
        intro z hz
        rcases List.mem_cons.mp hz with rfl | hz2
        · exact le_refl _
        · exact le_trans (hmax z hz2) (le_of_not_le hc)

theorem indexOf_lt_of_mem_take {a : ℕ} : ∀ (l : List ℕ) (i : ℕ), a ∈ l.take i →
    l.indexOf a < i := by
  intro l
  induction l with
  | nil => intro i h; simp at h
  | cons x xs ih =>
    intro i h
    cases i with
    | zero => simp at h
    | succ j =>
      rw [List.take_succ_cons] at h
      rcases List.mem_cons.mp h with rfl | h2
      · rw [List.indexOf_cons_self]
        omega
      · by_cases hxa : x = a
        · subst hxa
          rw [List.indexOf_cons_self]
          omega
        · rw [List.indexOf_cons_ne _ hxa]
          have := ih j h2
          omega

theorem indexOf_eq_of_get? {a : ℕ} : ∀ (l : List ℕ), l.Nodup → ∀ i, l.get? i = some a →
    l.indexOf a = i := by
  intro l
  induction l with
  | nil => intro _ i h; simp at h
  | cons x xs ih =>
    intro hnd i h
    cases i with
    | zero =>
      rw [List.get?_cons_zero] at h
      injection h with h2
      subst h2
      exact List.indexOf_cons_self _ _
    | succ j =>
      rw [List.get?_cons_succ] at h
      have hmem : a ∈ xs := List.get?_mem h
      have hxa : x ≠ a := by
        intro he
        subst he
        exact (List.nodup_cons.mp hnd).1 hmem
      rw [List.indexOf_cons_ne _ hxa, ih (List.nodup_cons.mp hnd).2 j h]

theorem get?_eq_getD {l : List ℕ} {k : ℕ} (hk : k < l.length) :
    l.get? k = some (l.getD k 0) := by
  rw [List.getD_eq_get l 0 hk, List.get?_eq_get hk]

theorem fst_inj_of_nodup {u : ℕ} {a b : Option ℕ} : ∀ (l : List (ℕ × Option ℕ)),
    (l.map Prod.fst).Nodup → (u, a) ∈ l → (u, b) ∈ l → a = b := by
  intro l
  induction l with
  | nil => intro _ h; simp at h
  | cons x xs ih =>
    intro hnd ha hb
    rw [List.map_cons, List.nodup_cons] at hnd
    rcases List.mem_cons.mp ha with rfl | ha2
    · rcases List.mem_cons.mp hb with he | hb2
      · exact ((Prod.ext_iff.mp he).2).symm
      · exact absurd (List.mem_map.mpr ⟨(u, b), hb2, rfl⟩) hnd.1
    · rcases List.mem_cons.mp hb with rfl | hb2
      · exact absurd (List.mem_map.mpr ⟨(u, a), ha2, rfl⟩) hnd.1
      · exact ih hnd.2 ha2 hb2

theorem filter_some_none_length : ∀ (l : List (ℕ × Option ℕ)),
    (l.filter (fun e => e.2.isSome)).length + (l.filter (fun e => e.2.isNone)).length
      = l.length := by
  intro l
  induction l with
  | nil => rfl
  | cons x xs ih =>
    rw [List.filter_cons, List.filter_cons]
    cases hx : x.2 with
    | none => simp only [Option.isSome_none, Option.isNone_none, hx]; simp; omega
    | some v => simp only [hx, Option.isSome_some, Option.isNone_some]; simp; omega

theorem ofVertsU_adj_nil (verts : List ℕ) (v : ℕ) :
    (graph.ofVerts verts []).adj v = [] := by
  by_cases hv : v ∈ verts <;> simp [graph.ofVerts, graph.seedGet, List.lookup, hv]

theorem ofVertsU_ne_zero (verts : List ℕ) : (graph.ofVerts verts []).ne = 0 := by
  show ((verts.dedup.map (fun v => (graph.seedGet [] v).length)).sum : ℚ) / 2 = 0
  have h : verts.dedup.map (fun v => (graph.seedGet [] v).length) =
      verts.dedup.map (fun _ => 0) := by
    apply List.map_congr_left
    intro x _
    simp [graph.seedGet, List.lookup]
  rw [h]
  simp

theorem sfNbrs_sp (g : graph.UGraph)
    (hcl : ∀ x ∈ g.verts, ∀ u ∈ g.adj x, u ∈ g.verts) (fuel : ℕ)
    (IH : ∀ v s, v ∈ g.verts → s.visited v = false →
      graph.ucard g.verts s.visited ≤ fuel → s.sf.verts = g.verts →
      graph.sfInvP s v →
      ∃ tail, SfCore g s (graph.sfExplore g fuel v s) ((v, none) :: tail) ∧
        (∀ e ∈ tail, e.2.isSome = true) ∧
        graph.sfInv (graph.sfExplore g fuel v s) ∧
        (∀ x ∈ ((v, none) :: tail).map Prod.fst, graph.Reach g v x)) :
    ∀ (l : List ℕ) (s : graph.SfState) (v : ℕ), v ∈ g.verts →
      s.visited v = true → (∀ u ∈ l, u ∈ g.adj v) →
      graph.ucard g.verts s.visited ≤ fuel → s.sf.verts = g.verts →
      graph.sfInv s →
      ∃ ev, SfCore g s (graph.sfNbrs g fuel v l s) ev ∧
        (∀ e ∈ ev, e.2.isSome = true) ∧
        graph.sfInv (graph.sfNbrs g fuel v l s) ∧
        (∀ x ∈ ev.map Prod.fst, graph.Reach g v x) ∧
        (∀ u ∈ l, (graph.sfNbrs g fuel v l s).visited u = true) := by
  intro l
  induction l with
  | nil =>
    intro s v _ _ _ _ _ hinv
    rw [graph.sfNbrs]
    refine ⟨[], sfCore_refl g s, ?_, hinv, ?_, ?_⟩
    · intro e he
      cases he
    · intro x hx
      cases hx
    · intro u hu
      cases hu
  | cons u us ihl =>
    intro s v hv hvis hsub hfuel hverts hinv
    rw [graph.sfNbrs]
    by_cases hu : s.visited u = true
    · rw [if_pos hu]
      obtain ⟨ev, core, hsome, hinv2, hreach, hmarks⟩ :=
        ihl s v hv hvis (fun x hx => hsub x (List.mem_cons_of_mem _ hx)) hfuel hverts hinv
      refine ⟨ev, core, hsome, hinv2, hreach, ?_⟩
      intro w hw
      rcases List.mem_cons.mp hw with rfl | hw2
      · exact core.mono w hu
      · exact hmarks w hw2
    · rw [if_neg hu]
      have hu' : s.visited u = false := bfalse hu
      have huv : u ≠ v := by
        intro he
        rw [he, hvis] at hu'
        cases hu'
      have hug : u ∈ g.adj v := hsub u (List.mem_cons_self _ _)
      have hugv : u ∈ g.verts := hcl v hv u hug
      have hnadj : u ∉ s.sf.adj v := fun hmem => hu (hinv v u hmem).2
      set s'' : graph.SfState := ⟨s.visited, (graph.add_edge s.sf u v).2⟩ with hs''
      have hfst : (graph.add_edge s.sf u v).1 = true := by
        cases hb : (graph.add_edge s.sf u v).1
        · exfalso
          rcases (uadd_spec s.sf u v).1.mp hb with h | h | h | h
          · exact huv h
          · rw [hverts] at h
            exact h hugv
          · rw [hverts] at h
            exact h hv
          · exact hnadj h
        · rfl
      obtain ⟨-, -, hsucc⟩ := uadd_spec s.sf u v
      obtain ⟨hverts2, -, hne2, -, -, -, hadju, hadjv, hadjx⟩ := hsucc hfst
      have hvertsS : s''.sf.verts = g.verts := by
        show (graph.add_edge s.sf u v).2.verts = g.verts
        rw [hverts2, hverts]
      have hinvP : graph.sfInvP s'' u := by
        intro x y hxy
        by_cases hxu : x = u
        · subst hxu
          rcases (hadju y).mp hxy with hy | hy
          · exact ⟨Or.inr rfl, Or.inl (hinv x y hy).2⟩
          · subst hy
            exact ⟨Or.inr rfl, Or.inl hvis⟩
        · by_cases hxv : x = v
          · subst hxv
            rcases (hadjv y).mp hxy with hy | hy
            · exact ⟨Or.inl (hinv x y hy).1, Or.inl (hinv x y hy).2⟩
            · subst hy
              exact ⟨Or.inl hvis, Or.inr rfl⟩
          · rw [hadjx x hxu hxv] at hxy
            exact ⟨Or.inl (hinv x y hxy).1, Or.inl (hinv x y hxy).2⟩
      obtain ⟨tail, core1, hsome1, hinv1, hreach1⟩ :=
        IH u s'' hugv hu' hfuel hvertsS hinvP
      set T1 := graph.sfExplore g fuel u s'' with hT1
      have hvu : graph.Reach g v u :=
        Relation.ReflTransGen.single ⟨hv, hug⟩
      -- upgrade: the same block viewed from s, recording u as a child of v
      have core1' : SfCore g s T1 ((u, some v) :: tail) := by
        refine ⟨?_, ?_, ?_, ?_, ?_, ?_, ?_, ?_, ?_, ?_, ?_⟩
        · exact core1.mono
        · exact core1.vis_iff
        · intro p hp
          rcases List.mem_cons.mp hp with rfl | hp2
          · exact hu'
          · exact core1.fresh p (List.mem_cons_of_mem _ hp2)
        · exact core1.fst_nodup
        · intro p hp
          rcases List.mem_cons.mp hp with rfl | hp2
          · exact hugv
          · exact core1.fst_mem p (List.mem_cons_of_mem _ hp2)
        · intro i c p hget
          cases i with
          | zero =>
            rw [List.get?_cons_zero] at hget
            injection hget with h2
            obtain ⟨h3, h4⟩ := Prod.ext_iff.mp h2
            injection h4 with h5
            rw [← h5]
            exact Or.inl hvis
          | succ j =>
            rw [List.get?_cons_succ] at hget
            rcases core1.par_earlier (j + 1) c p (by rw [List.get?_cons_succ]; exact hget)
              with hvp | hmp
            · exact Or.inl hvp
            · right
              rw [List.take_succ_cons, List.map_cons] at hmp ⊢
              rcases List.mem_cons.mp hmp with rfl | hmp2
              · exact List.mem_cons_self _ _
              · exact List.mem_cons_of_mem _ hmp2
        · intro c p hp
          rcases List.mem_cons.mp hp with he | hp2
          · injection he with h3 h4
            injection h4 with h5
            rw [h3, h5]
            exact hug
          · exact core1.g_edge c p (List.mem_cons_of_mem _ hp2)
        · intro x y
          rw [core1.edges x y]
          have hadjS : s''.sf.adj = (graph.add_edge s.sf u v).2.adj := rfl
          have hmemS : y ∈ s''.sf.adj x ↔
              (y ∈ s.sf.adj x ∨ (x = u ∧ y = v) ∨ (x = v ∧ y = u)) := by
            rw [hadjS]
            by_cases hxu : x = u
            · rw [hxu]
              constructor
              · intro hy
                rcases (hadju y).mp hy with hy2 | hy2
                · exact Or.inl hy2
                · exact Or.inr (Or.inl ⟨rfl, hy2⟩)
              · rintro (hy | ⟨-, hyv⟩ | ⟨huvx, hyu⟩)
                · exact (hadju y).mpr (Or.inl hy)
                · exact (hadju y).mpr (Or.inr hyv)
                · exact absurd huvx huv
            · by_cases hxv : x = v
              · rw [hxv]
                constructor
                · intro hy
                  rcases (hadjv y).mp hy with hy2 | hy2
                  · exact Or.inl hy2
                  · exact Or.inr (Or.inr ⟨rfl, hy2⟩)
                · rintro (hy | ⟨hxu2, hyv⟩ | ⟨-, hyu⟩)
                  · exact (hadjv y).mpr (Or.inl hy)
                  · exact absurd (hxv ▸ hxu2 : (v : ℕ) = u) (fun h => huv h.symm)
                  · exact (hadjv y).mpr (Or.inr hyu)
              · rw [hadjx x hxu hxv]
                constructor
                · exact fun hy => Or.inl hy
                · rintro (hy | ⟨hxu2, hyv⟩ | ⟨hxv2, hyu⟩)
                  · exact hy
                  · exact absurd hxu2 hxu
                  · exact absurd hxv2 hxv
          rw [hmemS]
          have hnone : ∀ (a b : ℕ), (a, some b) ∈ ((u, none) :: tail) ↔
              (a, some b) ∈ tail := by
            intro a b
            constructor
            · intro h
              rcases List.mem_cons.mp h with he | h2
              · injection he with h3 h4
                cases h4
              · exact h2
            · exact fun h => List.mem_cons_of_mem _ h
          have hsome' : ∀ (a b : ℕ), (a, some b) ∈ ((u, some v) :: tail) ↔
              ((a = u ∧ b = v) ∨ (a, some b) ∈ tail) := by
            intro a b
            rw [List.mem_cons]
            constructor
            · rintro (he | h2)
              · injection he with h3 h4
                injection h4 with h5
                exact Or.inl ⟨h3, h5⟩
              · exact Or.inr h2
            · rintro (⟨ha, hb⟩ | h2)
              · left
                rw [ha, hb]
              · exact Or.inr h2
          rw [hnone x y, hnone y x, hsome' x y, hsome' y x]
          constructor
          · rintro ((hA | ⟨h1, h2⟩ | ⟨h1, h2⟩) | hB | hC)
            · exact Or.inl hA
            · exact Or.inr (Or.inl (Or.inl ⟨h1, h2⟩))
            · exact Or.inr (Or.inr (Or.inl ⟨h2, h1⟩))
            · exact Or.inr (Or.inl (Or.inr hB))
            · exact Or.inr (Or.inr (Or.inr hC))
          · rintro (hA | (⟨h1, h2⟩ | hB) | (⟨h1, h2⟩ | hC))
            · exact Or.inl (Or.inl hA)
            · exact Or.inl (Or.inr (Or.inl ⟨h1, h2⟩))
            · exact Or.inr (Or.inl hB)
            · exact Or.inl (Or.inr (Or.inr ⟨h2, h1⟩))
            · exact Or.inr (Or.inr hC)
        · rw [core1.ne_eq, show s''.sf.ne = (graph.add_edge s.sf u v).2.ne from rfl,
            hne2, List.filter_cons, List.filter_cons]
          simp only [Option.isSome_none, Option.isSome_some]
          norm_num
          push_cast
          ring
        · intro p hp
          rcases List.mem_cons.mp hp with rfl | hp2
          · exact core1.nbrs (u, none) (List.mem_cons_self _ _)
          · exact core1.nbrs p (List.mem_cons_of_mem _ hp2)
        · rw [core1.verts_eq]
          show (graph.add_edge s.sf u v).2.verts = s.sf.verts
          rw [hverts2]
      have hvT1 : T1.visited v = true := core1.mono v hvis
      have hfuelT1 : graph.ucard g.verts T1.visited ≤ fuel :=
        le_trans (ucard_mono g.verts core1.mono) hfuel
      have hvertsT1 : T1.sf.verts = g.verts := by
        rw [core1.verts_eq]
        exact hvertsS
      obtain ⟨ev2, core2, hsome2, hinv2, hreach2, hmarks2⟩ :=
        ihl T1 v hv hvT1 (fun x hx => hsub x (List.mem_cons_of_mem _ hx))
          hfuelT1 hvertsT1 hinv1
      refine ⟨((u, some v) :: tail) ++ ev2, sfCore_trans core1' core2, ?_, hinv2, ?_, ?_⟩
      · intro e he
        rcases List.mem_append.mp he with h1 | h2
        · rcases List.mem_cons.mp h1 with rfl | h1b
          · rfl
          · exact hsome1 e h1b
        · exact hsome2 e h2
      · intro x hx
        rw [List.map_append, List.mem_append] at hx
        rcases hx with h1 | h2
        · rw [List.map_cons] at h1
          rcases List.mem_cons.mp h1 with rfl | h1b
          · exact hvu
          · exact Relation.ReflTransGen.trans hvu
              (hreach1 x (by rw [List.map_cons]; exact List.mem_cons_of_mem _ h1b))
        · exact hreach2 x h2
      · intro w hw
        rcases List.mem_cons.mp hw with rfl | hw2
        · refine core2.mono w ?_
          rw [(core1.vis_iff w)]
          right
          rw [List.map_cons]
          exact List.mem_cons_self _ _
        · exact hmarks2 w hw2

theorem sfExplore_sp (g : graph.UGraph)
    (hcl : ∀ x ∈ g.verts, ∀ u ∈ g.adj x, u ∈ g.verts) :
    ∀ (fuel : ℕ) (v : ℕ) (s : graph.SfState), v ∈ g.verts → s.visited v = false →
      graph.ucard g.verts s.visited ≤ fuel → s.sf.verts = g.verts →
      graph.sfInvP s v →
      ∃ tail, SfCore g s (graph.sfExplore g fuel v s) ((v, none) :: tail) ∧
        (∀ e ∈ tail, e.2.isSome = true) ∧
        graph.sfInv (graph.sfExplore g fuel v s) ∧
        (∀ x ∈ ((v, none) :: tail).map Prod.fst, graph.Reach g v x) := by
  intro fuel
  induction fuel with
  | zero =>
    intro v s hv hnv hfuel _ _
    have := ucard_pos g.verts s.visited v hv hnv
    omega
  | succ fuel ih =>
    intro v s hv hnv hfuel hverts hinvP
    set S1 : graph.SfState := ⟨Function.update s.visited v true, s.sf⟩ with hS1
    have hexp : graph.sfExplore g (fuel + 1) v s = graph.sfNbrs g fuel v (g.adj v) S1 := by
      rw [graph.sfExplore]
    have hvisS1 : S1.visited v = true := Function.update_same v true s.visited
    have hvisS1x : ∀ x, x ≠ v → S1.visited x = s.visited x :=
      fun x hx => Function.update_noteq hx true s.visited
    have hup : ∀ x, s.visited x = true → S1.visited x = true := by
      intro x hx
      by_cases hxv : x = v
      · rw [hxv]
        exact hvisS1
      · rw [hvisS1x x hxv]
        exact hx
    have hcard1 : graph.ucard g.verts S1.visited ≤ fuel := by
      have := ucard_update g.verts s.visited v hv hnv
      have hS1v : S1.visited = Function.update s.visited v true := rfl
      rw [hS1v]
      omega
    have hinvS1 : graph.sfInv S1 := by
      intro x y hxy
      obtain ⟨hx, hy⟩ := hinvP x y hxy
      constructor
      · rcases hx with hx | hx
        · exact hup x hx
        · rw [hx]
          exact hvisS1
      · rcases hy with hy | hy
        · exact hup y hy
        · rw [hy]
          exact hvisS1
    obtain ⟨ev1, core1, hsome1, hinv1, hreach1, hmarks1⟩ :=
      sfNbrs_sp g hcl fuel ih (g.adj v) S1 v hv hvisS1 (fun u hu => hu) hcard1 hverts hinvS1
    rw [hexp]
    set T := graph.sfNbrs g fuel v (g.adj v) S1 with hT
    refine ⟨ev1, ⟨?_, ?_, ?_, ?_, ?_, ?_, ?_, ?_, ?_, ?_, ?_⟩, hsome1, hinv1, ?_⟩
    · exact fun x hx => core1.mono x (hup x hx)
    · intro x
      rw [core1.vis_iff x, List.map_cons]
      constructor
      · rintro (h1 | h2)
        · by_cases hxv : x = v
          · exact Or.inr (by rw [hxv]; exact List.mem_cons_self _ _)
          · rw [hvisS1x x hxv] at h1
            exact Or.inl h1
        · exact Or.inr (List.mem_cons_of_mem _ h2)
      · rintro (h1 | h2)
        · exact Or.inl (hup x h1)
        · rcases List.mem_cons.mp h2 with rfl | h3
          · exact Or.inl hvisS1
          · exact Or.inr h3
    · intro p hp
      rcases List.mem_cons.mp hp with rfl | hp2
      · exact hnv
      · have hfr := core1.fresh p hp2
        by_cases hpv : p.1 = v
        · rw [hpv, hvisS1] at hfr
          cases hfr
        · rw [hvisS1x p.1 hpv] at hfr
          exact hfr
    · rw [List.map_cons]
      refine List.nodup_cons.mpr ⟨?_, core1.fst_nodup⟩
      intro hvin
      obtain ⟨p, hp, hpe⟩ := List.mem_map.mp hvin
      have := core1.fresh p hp
      rw [hpe, hvisS1] at this
      cases this
    · intro p hp
      rcases List.mem_cons.mp hp with rfl | hp2
      · exact hv
      · exact core1.fst_mem p hp2
    · intro i c p hget
      cases i with
      | zero =>
        rw [List.get?_cons_zero] at hget
        injection hget with h2
        injection h2 with h3 h4
        cases h4
      | succ j =>
        rw [List.get?_cons_succ] at hget
        rcases core1.par_earlier j c p hget with hvp | hmp
        · by_cases hpv : p = v
          · right
            rw [List.take_succ_cons, List.map_cons, hpv]
            exact List.mem_cons_self _ _
          · rw [hvisS1x p hpv] at hvp
            exact Or.inl hvp
        · right
          rw [List.take_succ_cons, List.map_cons]
          exact List.mem_cons_of_mem _ hmp
    · intro c p hp
      rcases List.mem_cons.mp hp with he | hp2
      · injection he with h3 h4
        cases h4
      · exact core1.g_edge c p hp2
    · intro x y
      rw [core1.edges x y]
      have hS1adj : S1.sf.adj = s.sf.adj := rfl
      rw [hS1adj]
      have hnone : ∀ (a b : ℕ), (a, some b) ∈ ((v, none) :: ev1) ↔
          (a, some b) ∈ ev1 := by
        intro a b
        constructor
        · intro h
          rcases List.mem_cons.mp h with he | h2
          · injection he with h3 h4
            cases h4
          · exact h2
        · exact fun h => List.mem_cons_of_mem _ h
      rw [hnone x y, hnone y x]
    · rw [core1.ne_eq, List.filter_cons]
      simp only [Option.isSome_none]
      norm_num
    · intro p hp
      rcases List.mem_cons.mp hp with rfl | hp2
      · exact fun u hu => hmarks1 u hu
      · exact core1.nbrs p hp2
    · exact core1.verts_eq
    · intro x hx
      rw [List.map_cons] at hx
      rcases List.mem_cons.mp hx with rfl | h2
      · exact Relation.ReflTransGen.refl
      · exact hreach1 x h2

/-- The roots of a spanning-forest event list: the vertices discovered by the
outer loop rather than through a tree edge. -/
def sfRoots (ev : List (ℕ × Option ℕ)) : List ℕ :=
  (ev.filter (fun e => e.2.isNone)).map Prod.fst

theorem sfRoots_append (a b : List (ℕ × Option ℕ)) :
    sfRoots (a ++ b) = sfRoots a ++ sfRoots b := by
  unfold sfRoots
  rw [List.filter_append, List.map_append]

theorem sfRoots_allsome (ev : List (ℕ × Option ℕ))
    (h : ∀ e ∈ ev, e.2.isSome = true) : sfRoots ev = [] := by
  unfold sfRoots
  have : ev.filter (fun e => e.2.isNone) = [] := by
    rw [List.filter_eq_nil]
    intro a ha
    rw [Option.isNone_iff_eq_none]
    intro hno
    have := h a ha
    rw [hno] at this
    cases this
  rw [this]
  rfl

theorem sfRoots_cons_none (v : ℕ) (tail : List (ℕ × Option ℕ)) :
    sfRoots ((v, none) :: tail) = v :: sfRoots tail := by
  unfold sfRoots
  rw [List.filter_cons]
  simp

theorem gClosed_reach {g : graph.UGraph} {vis : ℕ → Bool}
    (hc : graph.gClosed g vis) {x y : ℕ} (hx : vis x = true)
    (hr : graph.Reach g x y) : vis y = true := by
  induction hr with
  | refl => exact hx
  | tail h1 h2 ih => exact hc _ ih _ h2.2

theorem gClosed_of_core {g : graph.UGraph} {s t : graph.SfState}
    {ev : List (ℕ × Option ℕ)} (core : SfCore g s t ev)
    (hc : graph.gClosed g s.visited) : graph.gClosed g t.visited := by
  intro x hx u hu
  rcases (core.vis_iff x).mp hx with h1 | h2
  · exact core.mono u (hc x h1 u hu)
  · obtain ⟨p, hp, hpe⟩ := List.mem_map.mp h2
    refine core.nbrs p hp u ?_
    rw [hpe]
    exact hu

theorem sfLoop_sp (g : graph.UGraph)
    (hcl : ∀ x ∈ g.verts, ∀ u ∈ g.adj x, u ∈ g.verts) (fuel : ℕ) :
    ∀ (l : List ℕ) (s : graph.SfState), (∀ u ∈ l, u ∈ g.verts) →
      graph.ucard g.verts s.visited ≤ fuel → s.sf.verts = g.verts →
      graph.sfInv s → graph.gClosed g s.visited →
      ∃ ev, SfCore g s (graph.sfLoop g fuel l s) ev ∧
        graph.sfInv (graph.sfLoop g fuel l s) ∧
        graph.gClosed g (graph.sfLoop g fuel l s).visited ∧
        (∀ u ∈ l, (graph.sfLoop g fuel l s).visited u = true) ∧
        (∀ x ∈ ev.map Prod.fst, ∃ r ∈ sfRoots ev, graph.Reach g r x) ∧
        List.Pairwise (fun a b => ¬ graph.Reach g a b) (sfRoots ev) ∧
        (∀ r ∈ sfRoots ev, ∀ x, s.visited x = true → ¬ graph.Reach g x r) := by
  intro l
  induction l with
  | nil =>
    intro s _ _ _ hinv hclosed
    rw [graph.sfLoop]
    refine ⟨[], sfCore_refl g s, hinv, hclosed, ?_, ?_, ?_, ?_⟩
    · intro u hu
      cases hu
    · intro x hx
      cases hx
    · exact List.Pairwise.nil
    · intro r hr
      cases hr
  | cons v vs ihl =>
    intro s hsub hfuel hverts hinv hclosed
    rw [graph.sfLoop]
    by_cases hvis : s.visited v = true
    · rw [if_pos hvis]
      obtain ⟨ev, core, hinv2, hclosed2, hmarks, hreach, hpair, hfree⟩ :=
        ihl s (fun x hx => hsub x (List.mem_cons_of_mem _ hx)) hfuel hverts hinv hclosed
      refine ⟨ev, core, hinv2, hclosed2, ?_, hreach, hpair, hfree⟩
      intro u hu
      rcases List.mem_cons.mp hu with rfl | hu2
      · exact core.mono u hvis
      · exact hmarks u hu2
    · rw [if_neg hvis]
      have hnv : s.visited v = false := bfalse hvis
      have hv : v ∈ g.verts := hsub v (List.mem_cons_self _ _)
      have hinvP : graph.sfInvP s v := by
        intro x y hxy
        exact ⟨Or.inl (hinv x y hxy).1, Or.inl (hinv x y hxy).2⟩
      obtain ⟨tail, core1, hsome1, hinv1, hreach1⟩ :=
        sfExplore_sp g hcl fuel v s hv hnv hfuel hverts hinvP
      set T1 := graph.sfExplore g fuel v s with hT1
      have hvT1 : T1.visited v = true := by
        rw [core1.vis_iff v]
        right
        rw [List.map_cons]
        exact List.mem_cons_self _ _
      have hclosed1 : graph.gClosed g T1.visited := gClosed_of_core core1 hclosed
      have hfuel1 : graph.ucard g.verts T1.visited ≤ fuel :=
        le_trans (ucard_mono g.verts core1.mono) hfuel
      have hverts1 : T1.sf.verts = g.verts := by
        rw [core1.verts_eq]
        exact hverts
      obtain ⟨ev2, core2, hinv2, hclosed2, hmarks2, hreach2, hpair2, hfree2⟩ :=
        ihl T1 (fun x hx => hsub x (List.mem_cons_of_mem _ hx)) hfuel1 hverts1
          hinv1 hclosed1
      have hroots : sfRoots (((v, none) :: tail) ++ ev2) = v :: sfRoots ev2 := by
        rw [sfRoots_append, sfRoots_cons_none, sfRoots_allsome tail hsome1]
        rfl
      refine ⟨((v, none) :: tail) ++ ev2, sfCore_trans core1 core2, hinv2, hclosed2,
        ?_, ?_, ?_, ?_⟩
      · intro u hu
        rcases List.mem_cons.mp hu with rfl | hu2
        · exact core2.mono u hvT1
        · exact hmarks2 u hu2
      · intro x hx
        rw [List.map_append, List.mem_append] at hx
        rw [hroots]
        rcases hx with h1 | h2
        · exact ⟨v, List.mem_cons_self _ _, hreach1 x h1⟩
        · obtain ⟨r, hr, hrx⟩ := hreach2 x h2
          exact ⟨r, List.mem_cons_of_mem _ hr, hrx⟩
      · rw [hroots]
        refine List.Pairwise.cons ?_ hpair2
        intro r2 hr2
        exact hfree2 r2 hr2 v hvT1
      · rw [hroots]
        intro r hr x hx
        rcases List.mem_cons.mp hr with rfl | hr2
        · intro hrx
          have := gClosed_reach hclosed hx hrx
          rw [hnv] at this
          cases this
        · exact hfree2 r hr2 x (core1.mono x hx)

theorem no_cycle_of_events (sf : graph.UGraph) (ev : List (ℕ × Option ℕ))
    (hnd : (ev.map Prod.fst).Nodup)
    (hpar : ∀ i c p, ev.get? i = some (c, some p) → p ∈ (ev.take i).map Prod.fst)
    (hedges : ∀ x y, y ∈ sf.adj x ↔ ((x, some y) ∈ ev ∨ (y, some x) ∈ ev)) :
    ∀ l, ¬ graph.IsCycle sf l := by
  intro l hcyc
  obtain ⟨hlen, hlnd, hadj⟩ := hcyc
  set n := l.length with hn
  have hln : l ≠ [] := by
    intro h
    rw [h] at hn
    simp at hn
    omega
  set ord := ev.map Prod.fst with hord
  obtain ⟨u, hu, hmax⟩ := exists_max_key (fun z => ord.indexOf z) l hln
  obtain ⟨k, hk, hgetk⟩ := List.mem_iff_getElem.mp hu
  have hgetd : l.getD k 0 = u := by
    rw [List.getD_eq_get l 0 hk, List.get_eq_getElem]
    exact hgetk
  have hchild : ∀ x ∈ l, graph.hasEdge sf u x → (u, some x) ∈ ev := by
    intro x hxl hx
    have hcases : (u, some x) ∈ ev ∨ (x, some u) ∈ ev := by
      rcases hx with h | h
      · exact (hedges u x).mp h
      · rcases (hedges x u).mp h with h2 | h2
        · exact Or.inr h2
        · exact Or.inl h2
    rcases hcases with h | h
    · exact h
    · exfalso
      obtain ⟨i, hi⟩ := List.mem_iff_get?.mp h
      have hpu : u ∈ (ev.take i).map Prod.fst := hpar i x u hi
      have hlt : ord.indexOf u < i := by
        apply indexOf_lt_of_mem_take
        rw [hord, ← List.map_take]
        exact hpu
      have hxi : ord.indexOf x = i := by
        apply indexOf_eq_of_get? ord hnd
        rw [hord, List.get?_map, hi]
        rfl
      have hmx : ord.indexOf x ≤ ord.indexOf u := hmax x hxl
      omega
  have hgetinj : ∀ i j, i < n → j < n → l.getD i 0 = l.getD j 0 → i = j := by
    intro i j hi hj he
    have h1 := indexOf_eq_of_get? l hlnd i (get?_eq_getD hi)
    have h2 := indexOf_eq_of_get? l hlnd j (get?_eq_getD hj)
    rw [he] at h1
    omega
  have hgmem : ∀ i, i < n → l.getD i 0 ∈ l := by
    intro i hi
    exact List.get?_mem (get?_eq_getD hi)
  set p1 := (k + n - 1) % n with hp1def
  set p2 := (k + 1) % n with hp2def
  have hnpos : 0 < n := by omega
  have hp1v : p1 < n := Nat.mod_lt _ hnpos
  have hp2v : p2 < n := Nat.mod_lt _ hnpos
  have hkey : (p1 + 1) % n = k ∧ p1 ≠ p2 := by
    by_cases hk0 : k = 0
    · have e1 : p1 = n - 1 := by
        rw [hp1def, hk0, show 0 + n - 1 = n - 1 from by omega]
        exact Nat.mod_eq_of_lt (by omega)
      have e2 : p2 = 1 := by
        rw [hp2def, hk0, show (0 : ℕ) + 1 = 1 from rfl]
        exact Nat.mod_eq_of_lt (by omega)
      constructor
      · rw [e1, show n - 1 + 1 = n from by omega, Nat.mod_self, hk0]
      · rw [e1, e2]
        omega
    · by_cases hkn : k + 1 = n
      · have e1 : p1 = n - 2 := by
          rw [hp1def, show k + n - 1 = n + (n - 2) from by omega, Nat.add_mod_left]
          exact Nat.mod_eq_of_lt (by omega)
        have e2 : p2 = 0 := by
          rw [hp2def, hkn]
          exact Nat.mod_self n
        constructor
        · rw [e1, show n - 2 + 1 = n - 1 from by omega]
          rw [Nat.mod_eq_of_lt (by omega)]
          omega
        · rw [e1, e2]
          omega
      · have hk1 : 1 ≤ k := by omega
        have hkn2 : k + 1 < n := by omega
        have e1 : p1 = k - 1 := by
          rw [hp1def, show k + n - 1 = (k - 1) + n from by omega, Nat.add_mod_right]
          exact Nat.mod_eq_of_lt (by omega)
        have e2 : p2 = k + 1 := by
          rw [hp2def]
          exact Nat.mod_eq_of_lt hkn2
        constructor
        · rw [e1, show k - 1 + 1 = k from by omega]
          exact Nat.mod_eq_of_lt (by omega)
        · rw [e1, e2]
          omega
  obtain ⟨hp1succ, hne12⟩ := hkey
  have hedge1 : graph.hasEdge sf (l.getD p1 0) (l.getD k 0) := by
    have := hadj p1 hp1v
    rw [hp1succ] at this
    exact this
  have hedge2 : graph.hasEdge sf (l.getD k 0) (l.getD p2 0) := hadj k hk
  rw [hgetd] at hedge1 hedge2
  have he1 : (u, some (l.getD p1 0)) ∈ ev := by
    refine hchild (l.getD p1 0) (hgmem p1 hp1v) ?_
    rcases hedge1 with h | h
    · exact Or.inr h
    · exact Or.inl h
  have he2 : (u, some (l.getD p2 0)) ∈ ev := hchild (l.getD p2 0) (hgmem p2 hp2v) hedge2
  have heq := fst_inj_of_nodup ev hnd he1 he2
  injection heq with heq2
  exact hne12 (hgetinj p1 p2 hp1v hp2v heq2)

theorem adjStep_symm (g : graph.UGraph) (hw : UWF g) :
    Symmetric (graph.adjStep g) := by
  intro a b hab
  exact ⟨(hw.adj_mem a b hab.2).2, hw.symm a b hab.2⟩

theorem Reach_symm (g : graph.UGraph) (hw : UWF g) {a b : ℕ}
    (h : graph.Reach g a b) : graph.Reach g b a :=
  Relation.ReflTransGen.symmetric (adjStep_symm g hw) h

theorem comp_eq_of_reach (g : graph.UGraph) (hw : UWF g) {r v : ℕ}
    (h : graph.Reach g r v) : graph.component g r = graph.component g v := by
  classical
  unfold graph.component
  ext x
  rw [Finset.mem_filter, Finset.mem_filter]
  constructor
  · rintro ⟨h1, h2⟩
    exact ⟨h1, Relation.ReflTransGen.trans (Reach_symm g hw h) h2⟩
  · rintro ⟨h1, h2⟩
    exact ⟨h1, Relation.ReflTransGen.trans h h2⟩

/-- C4: for every undirected graph state satisfying the reachable-state
invariant `UWF` (duplicate-free keys, consistent `nv`, adjacency inside the
key set, symmetric, no self-loops), `spanning_forest` returns a graph on the
same vertex list that contains no cycle and has exactly
`nv - (number of connected components)` edges.  The claim's final clause,
that the call leaves `G` unchanged, holds by construction of the embedding:
the source only reads `G` (iteration and `G[v]` lookups) and all writes go
to the fresh `visited` dict and the forest under construction, so the
embedding threads no state for `G` at all. -/
theorem claim4_spanning_forest (g : graph.UGraph) (hw : UWF g) :
    (graph.spanning_forest g).verts = g.verts ∧
    (graph.spanning_forest g).ne =
      (g.nv : ℚ) - ((graph.components g).card : ℚ) ∧
    (∀ l : List ℕ, ¬ graph.IsCycle (graph.spanning_forest g) l) := by
  have hcl : ∀ x ∈ g.verts, ∀ u ∈ g.adj x, u ∈ g.verts :=
    fun x _ u hu => (hw.adj_mem x u hu).2
  set s0 : graph.SfState := ⟨fun _ => false, graph.ofVerts g.verts []⟩ with hs0
  have hvis0 : s0.visited = fun _ => false := rfl
  have hsf0 : s0.sf = graph.ofVerts g.verts [] := rfl
  have hverts0 : s0.sf.verts = g.verts := by
    rw [hsf0]
    show g.verts.dedup = g.verts
    exact List.Nodup.dedup hw.nodup
  have hfuel : graph.ucard g.verts s0.visited ≤ g.verts.length := by
    unfold graph.ucard
    calc (g.verts.toFinset.filter (fun x => s0.visited x = false)).card
        ≤ g.verts.toFinset.card := Finset.card_filter_le _ _
      _ ≤ g.verts.length := g.verts.toFinset_card_le
  have hinv0 : graph.sfInv s0 := by
    intro x y hxy
    rw [hsf0, ofVertsU_adj_nil] at hxy
    cases hxy
  have hclosed0 : graph.gClosed g s0.visited := by
    intro x hx
    rw [hvis0] at hx
    cases hx
  obtain ⟨ev, core, hinvT, hclosedT, hmarks, hreach, hpair, -⟩ :=
    sfLoop_sp g hcl g.verts.length g.verts s0 (fun u hu => hu) hfuel hverts0
      hinv0 hclosed0
  set T := graph.sfLoop g g.verts.length g.verts s0 with hT
  have hsf : graph.spanning_forest g = T.sf := rfl
  have hvisF : ∀ x, T.visited x = true ↔ x ∈ ev.map Prod.fst := by
    intro x
    rw [core.vis_iff x, hvis0]
    constructor
    · rintro (h1 | h2)
      · cases h1
      · exact h2
    · exact fun h => Or.inr h
  have hfst_verts : ∀ x, x ∈ ev.map Prod.fst ↔ x ∈ g.verts := by
    intro x
    constructor
    · intro hx
      obtain ⟨p, hp, hpe⟩ := List.mem_map.mp hx
      rw [← hpe]
      exact core.fst_mem p hp
    · intro hx
      exact (hvisF x).mp (hmarks x hx)
  have hvertsT : T.sf.verts = g.verts := core.verts_eq.trans hverts0
  have hndfst := core.fst_nodup
  have hlen_ev : ev.length = g.verts.length := by
    have h1 : (ev.map Prod.fst).length = ev.length := List.length_map _ _
    have h2 : (ev.map Prod.fst).toFinset = g.verts.toFinset := by
      ext x
      rw [List.mem_toFinset, List.mem_toFinset]
      exact hfst_verts x
    have h3 : (ev.map Prod.fst).toFinset.card = (ev.map Prod.fst).length :=
      List.toFinset_card_of_nodup hndfst
    have h4 : g.verts.toFinset.card = g.verts.length :=
      List.toFinset_card_of_nodup hw.nodup
    rw [h2] at h3
    omega
  set rts := sfRoots ev with hrts
  have hsubl : rts.Sublist (ev.map Prod.fst) := by
    rw [hrts]
    exact (List.filter_sublist ev).map Prod.fst
  have hrts_nodup : rts.Nodup := hndfst.sublist hsubl
  have hroots_verts : ∀ r ∈ rts, r ∈ g.verts :=
    fun r hr => (hfst_verts r).mp (hsubl.mem hr)
  have hneT : T.sf.ne = ((ev.filter (fun e => e.2.isSome)).length : ℚ) := by
    rw [core.ne_eq, hsf0, ofVertsU_ne_zero]
    ring
  have hcount : (ev.filter (fun e => e.2.isSome)).length + rts.length
      = g.verts.length := by
    have h1 := filter_some_none_length ev
    have h2 : rts.length = (ev.filter (fun e => e.2.isNone)).length := by
      rw [hrts]
      unfold sfRoots
      rw [List.length_map]
    omega
  have himage : graph.components g =
      rts.toFinset.image (fun r => graph.component g r) := by
    apply Finset.Subset.antisymm
    · intro c hc
      obtain ⟨v, hv, hve⟩ := Finset.mem_image.mp hc
      have hvv : v ∈ g.verts := List.mem_toFinset.mp hv
      obtain ⟨r, hr, hrv⟩ := hreach v ((hfst_verts v).mpr hvv)
      refine Finset.mem_image.mpr ⟨r, List.mem_toFinset.mpr hr, ?_⟩
      rw [comp_eq_of_reach g hw hrv]
      exact hve
    · intro c hc
      obtain ⟨r, hr, hre⟩ := Finset.mem_image.mp hc
      have hrv : r ∈ g.verts := hroots_verts r (List.mem_toFinset.mp hr)
      exact Finset.mem_image.mpr ⟨r, List.mem_toFinset.mpr hrv, hre⟩
  have hinj : Set.InjOn (fun r => graph.component g r) rts.toFinset := by
    intro a ha b hb hab
    by_contra hne
    have hbv : b ∈ g.verts := hroots_verts b (List.mem_toFinset.mp hb)
    have hbmem : b ∈ graph.component g b := by
      classical
      unfold graph.component
      rw [Finset.mem_filter]
      exact ⟨List.mem_toFinset.mpr hbv, Relation.ReflTransGen.refl⟩
    rw [show graph.component g b = (fun r => graph.component g r) b from rfl,
      ← hab] at hbmem
    have hreachab : graph.Reach g a b := by
      classical
      have := Finset.mem_filter.mp hbmem
      exact this.2
    have hsymm2 : Symmetric (fun x y => ¬ graph.Reach g x y) :=
      fun x y hxy hr => hxy (Reach_symm g hw hr)
    exact hpair.forall hsymm2 (List.mem_toFinset.mp ha) (List.mem_toFinset.mp hb)
      hne hreachab
  have hcard : (graph.components g).card = rts.length := by
    rw [himage, Finset.card_image_of_injOn hinj,
      List.toFinset_card_of_nodup hrts_nodup]
  have hedgesF : ∀ x y, y ∈ T.sf.adj x ↔
      ((x, some y) ∈ ev ∨ (y, some x) ∈ ev) := by
    intro x y
    rw [core.edges x y, hsf0, ofVertsU_adj_nil]
    simp
  have hparF : ∀ i c p, ev.get? i = some (c, some p) →
      p ∈ (ev.take i).map Prod.fst := by
    intro i c p hget
    rcases core.par_earlier i c p hget with h1 | h2
    · rw [hvis0] at h1
      cases h1
    · exact h2
  have hacyc := no_cycle_of_events T.sf ev hndfst hparF hedgesF
  refine ⟨by rw [hsf]; exact hvertsT, ?_, by rw [hsf]; exact hacyc⟩
  rw [hsf, hneT, hcard, hw.nv_eq]
  have hq : ((ev.filter (fun e => e.2.isSome)).length : ℚ) + (rts.length : ℚ)
      = (g.verts.length : ℚ) := by
    exact_mod_cast hcount
  linarith

/-- C4 witness: the one-vertex graph. -/
theorem claim4_witness : UWF (graph.ofVerts [0] []) ∧
    ((graph.spanning_forest (graph.ofVerts [0] [])).verts =
      (graph.ofVerts [0] []).verts ∧
    (graph.spanning_forest (graph.ofVerts [0] [])).ne =
      ((graph.ofVerts [0] []).nv : ℚ) -
        ((graph.components (graph.ofVerts [0] [])).card : ℚ) ∧
    (∀ l : List ℕ, ¬ graph.IsCycle (graph.spanning_forest (graph.ofVerts [0] [])) l)) :=
  ⟨UWF_ofVerts [0] (by decide),
    claim4_spanning_forest (graph.ofVerts [0] []) (UWF_ofVerts [0] (by decide))⟩
